import Mathlib

/-!
# CompilerParser: a shallow embedding of `src/CompilerParser.cpp`

The parser keeps the not yet consumed tokens in `tokensIn`; here every method takes the
token list and returns the list it leaves behind.  A C++ exception is an `Except.error`.
The recursive rule methods take a fuel argument that bounds the depth of the calls.
-/

/-- Modelled from the spec: the header that declares `Token` is not part of the sources.
A token is a type tag and a literal text value. -/
structure Token where
  type : String
  value : String
deriving DecidableEq, Repr

/-- Modelled from the spec: the header that declares `ParseTree` is not part of the sources.
A node is either an interior node (`new ParseTree(type, value)` and its children in the
order of the `addChild` calls, a child being a possibly null pointer) or a leaf that wraps
one token (`new Token(type, value)`, or a token taken from the input). -/
inductive ParseTree where
  | node (type : String) (value : String) (children : List (Option ParseTree))
  | leaf (tok : Token)
deriving Repr

/-- What a method can end with instead of a result. -/
inductive Err where
  /-- `throw ParseException()` -/
  | parseError
  /-- `current()->getValue()` or `current()->getType()` with no token left: `front()` of an
  empty list, undefined in C++; the spec calls it the end-of-input condition. -/
  | endOfInput
  /-- The fuel of the model ran out (no counterpart in the program). -/
  | outOfFuel
deriving DecidableEq, Repr

namespace ParseTree

/-- The label of a node: the rule name of an interior node, the type tag of a leaf. -/
def label : ParseTree → String
  | node ty _ _ => ty
  | leaf tok => tok.type

/-- The children of a node; a leaf has none. -/
def children : ParseTree → List (Option ParseTree)
  | node _ _ cs => cs
  | leaf _ => []

end ParseTree

mutual
/-- The values of the token leaves below a node, read left to right. -/
def ParseTree.leafValues : ParseTree → List String
  | .leaf tok => [tok.value]
  | .node _ _ cs => leafValuesList cs
/-- The leaf values of a possibly null child. -/
def leafValuesOpt : Option ParseTree → List String
  | none => []
  | some t => t.leafValues
/-- The leaf values of a list of children. -/
def leafValuesList : List (Option ParseTree) → List String
  | [] => []
  | c :: cs => leafValuesOpt c ++ leafValuesList cs
end

namespace CompilerParser

/-- The children of the node under construction (`result` in the source). -/
abbrev Children := List (Option ParseTree)

/-- `result->addChild(c)`: the child is appended at the end. -/
def addChild (result : Children) (c : Option ParseTree) : Children := result ++ [c]

/-- `next()`: drops the front token. With no token left the source reads `front()` of an
empty list; the spec has it leave the empty sequence as it is. -/
def next : List Token → List Token
  | [] => []
  | _ :: ts => ts

/-- `current()`: the front token; the callers dereference it at once. -/
def current : List Token → Except Err Token
  | [] => .error .endOfInput
  | t :: _ => .ok t

/-- `have(expectedType, expectedValue)` -/
def have_ (expectedType expectedValue : String) (tokensIn : List Token) : Bool :=
  match tokensIn with
  | [] => false
  | t :: _ =>
    if t.type = expectedType ∧ t.value = expectedValue then true else false

/-- `mustBe(expectedType, expectedValue)` -/
def mustBe (expectedType expectedValue : String) (tokensIn : List Token) :
    Except Err (Option ParseTree × List Token) :=
  if have_ expectedType expectedValue tokensIn then
    match tokensIn with
    | [] => .error .endOfInput
    | t :: _ => .ok (some (.leaf t), next tokensIn)
  else .error .parseError

/-- `new Token(type, current()->getValue())` -/
def newTokenOfCurrent (type : String) (tokensIn : List Token) : Except Err (Option ParseTree) :=
  match current tokensIn with
  | .error e => .error e
  | .ok t => .ok (some (.leaf ⟨type, t.value⟩))

/-- `compileProgram()` -/
def compileProgram (ts : List Token) : Except Err (ParseTree × List Token) := do
  let result : Children := []
  let (c, ts) ← mustBe "keyword" "class" ts
  let result := addChild result c
  let (c, ts) ← mustBe "identifier" "Main" ts
  let result := addChild result c
  let (c, ts) ← mustBe "symbol" "\x7b" ts
  let result := addChild result c
  let (c, ts) ← mustBe "symbol" "\x7d" ts
  let result := addChild result c
  return (.node "class" "" result, ts)

/-- The loop of `compileClassVarDec()`; every turn that goes on has dropped the front token. -/
def classVarDecLoop : List Token → Children → Except Err (Children × List Token)
  | [], _ => .error .endOfInput
  | t :: ts, result =>
    if t.type = "identifier" then
      classVarDecLoop ts (addChild result (some (.leaf t)))
    else if have_ "symbol" "," (t :: ts) then
      classVarDecLoop ts (addChild result (some (.leaf t)))
    else if have_ "symbol" ";" (t :: ts) then
      .ok (addChild result (some (.leaf t)), ts)
    else .error .parseError

/-- `compileClassVarDec()` -/
def compileClassVarDec (ts : List Token) : Except Err (ParseTree × List Token) := do
  let result : Children := []
  let c ← newTokenOfCurrent "keyword" ts
  let result := addChild result c
  let ts := next ts
  let c ← newTokenOfCurrent "keyword" ts
  let result := addChild result c
  let ts := next ts
  let (result, ts) ← classVarDecLoop ts result
  return (.node "classVarDec" "" result, ts)

/-- The loop of `compileParameterList()`; a turn drops the comma and two more tokens. -/
def parameterListLoop (ts : List Token) (result : Children) :
    Except Err (Children × List Token) :=
  if have_ "symbol" "," ts then
    match ts with
    | comma :: ty :: name :: ts =>
      parameterListLoop ts
        (addChild (addChild (addChild result (some (.leaf comma)))
          (some (.leaf ⟨"keyword", ty.value⟩))) (some (.leaf ⟨"identifier", name.value⟩)))
    | _ => .error .endOfInput
  else .ok (result, ts)

/-- `compileParameterList()` -/
def compileParameterList (ts : List Token) : Except Err (ParseTree × List Token) :=
  let result : Children := []
  if have_ "symbol" ")" ts then .ok (.node "parameterList" "" result, ts)
  else do
    let c ← newTokenOfCurrent "keyword" ts
    let result := addChild result c
    let ts := next ts
    let c ← newTokenOfCurrent "identifier" ts
    let result := addChild result c
    let ts := next ts
    let (result, ts) ← parameterListLoop ts result
    return (.node "parameterList" "" result, ts)

/-- The loop of `compileVarDec()`; a turn drops the comma and one more token. -/
def varDecLoop (ts : List Token) (result : Children) :
    Except Err (Children × List Token) :=
  if have_ "symbol" "," ts then
    match ts with
    | comma :: name :: ts =>
      varDecLoop ts
        (addChild (addChild result (some (.leaf comma)))
          (some (.leaf ⟨"identifier", name.value⟩)))
    | _ => .error .endOfInput
  else .ok (result, ts)

/-- `compileVarDec()` -/
def compileVarDec (ts : List Token) : Except Err (ParseTree × List Token) := do
  let result : Children := []
  let (c, ts) ← mustBe "keyword" "var" ts
  let result := addChild result c
  let c ← newTokenOfCurrent "keyword" ts
  let result := addChild result c
  let ts := next ts
  let c ← newTokenOfCurrent "identifier" ts
  let result := addChild result c
  let ts := next ts
  let (result, ts) ← varDecLoop ts result
  let (c, ts) ← mustBe "symbol" ";" ts
  let result := addChild result c
  return (.node "varDec" "" result, ts)

mutual

/-- `compileStatements()` -/
def compileStatements : Nat → List Token → Except Err (ParseTree × List Token)
  | 0, _ => .error .outOfFuel
  | fuel + 1, ts =>
    let result : Children := []
    if !have_ "keyword" "let" ts && !have_ "keyword" "if" ts && !have_ "keyword" "while" ts
        && !have_ "keyword" "do" ts && !have_ "keyword" "return" ts then
      .ok (.node "statements" "" result, ts)
    else do
      let (result, ts) ← compileStatement fuel ts result
      let (result, ts) ← statementsLoop fuel ts result
      return (.node "statements" "" result, ts)

/-- The chain of alternatives that `compileStatements()` writes out twice, for the first
statement and in its loop: the statement the front keyword selects is added to `result`. -/
def compileStatement : Nat → List Token → Children → Except Err (Children × List Token)
  | 0, _, _ => .error .outOfFuel
  | fuel + 1, ts, result =>
    if have_ "keyword" "let" ts then do
      let (c, ts) ← compileLet fuel ts
      return (addChild result (some c), ts)
    else if have_ "keyword" "if" ts then do
      let (c, ts) ← compileIf fuel ts
      return (addChild result (some c), ts)
    else if have_ "keyword" "while" ts then do
      let (c, ts) ← compileWhile fuel ts
      return (addChild result (some c), ts)
    else if have_ "keyword" "do" ts then do
      let (c, ts) ← compileDo fuel ts
      return (addChild result (some c), ts)
    else if have_ "keyword" "return" ts then do
      let (c, ts) ← compileReturn fuel ts
      return (addChild result (some c), ts)
    else .ok (result, ts)

/-- The `while` loop of `compileStatements()`. -/
def statementsLoop : Nat → List Token → Children → Except Err (Children × List Token)
  | 0, _, _ => .error .outOfFuel
  | fuel + 1, ts, result =>
    if have_ "keyword" "let" ts || have_ "keyword" "if" ts || have_ "keyword" "while" ts
        || have_ "keyword" "do" ts || have_ "keyword" "return" ts then do
      let (result, ts) ← compileStatement fuel ts result
      statementsLoop fuel ts result
    else .ok (result, ts)

/-- `compileLet()` -/
def compileLet : Nat → List Token → Except Err (ParseTree × List Token)
  | 0, _ => .error .outOfFuel
  | fuel + 1, ts => do
    let result : Children := []
    let (c, ts) ← mustBe "keyword" "let" ts
    let result := addChild result c
    let c ← newTokenOfCurrent "identifier" ts
    let result := addChild result c
    let ts := next ts
    let (result, ts) ←
      if have_ "symbol" "[" ts then do
        let (c, ts) ← mustBe "symbol" "[" ts
        let result := addChild result c
        let (c, ts) ← compileExpression fuel ts
        let result := addChild result (some c)
        let (c, ts) ← mustBe "symbol" "]" ts
        let result := addChild result c
        pure (result, ts)
      else pure (result, ts)
    let (c, ts) ← mustBe "symbol" "=" ts
    let result := addChild result c
    let (c, ts) ← compileExpression fuel ts
    let result := addChild result (some c)
    let (c, ts) ← mustBe "symbol" ";" ts
    let result := addChild result c
    return (.node "letStatement" "" result, ts)

/-- `compileIf()` -/
def compileIf : Nat → List Token → Except Err (ParseTree × List Token)
  | 0, _ => .error .outOfFuel
  | fuel + 1, ts => do
    let result : Children := []
    let (c, ts) ← mustBe "keyword" "if" ts
    let result := addChild result c
    let (c, ts) ← mustBe "symbol" "(" ts
    let result := addChild result c
    let (c, ts) ← compileExpression fuel ts
    let result := addChild result (some c)
    let (c, ts) ← mustBe "symbol" ")" ts
    let result := addChild result c
    let (c, ts) ← mustBe "symbol" "\x7b" ts
    let result := addChild result c
    let (c, ts) ← compileStatements fuel ts
    let result := addChild result (some c)
    let (c, ts) ← mustBe "symbol" "\x7d" ts
    let result := addChild result c
    if have_ "keyword" "else" ts then do
      let (c, ts) ← mustBe "keyword" "else" ts
      let result := addChild result c
      let (c, ts) ← mustBe "symbol" "\x7b" ts
      let result := addChild result c
      let (c, ts) ← compileStatements fuel ts
      let result := addChild result (some c)
      let (c, ts) ← mustBe "symbol" "\x7d" ts
      let result := addChild result c
      return (.node "ifStatement" "" result, ts)
    else
      return (.node "ifStatement" "" result, ts)

/-- `compileWhile()` -/
def compileWhile : Nat → List Token → Except Err (ParseTree × List Token)
  | 0, _ => .error .outOfFuel
  | fuel + 1, ts => do
    let result : Children := []
    let (c, ts) ← mustBe "keyword" "while" ts
    let result := addChild result c
    let (c, ts) ← mustBe "symbol" "(" ts
    let result := addChild result c
    let (c, ts) ← compileExpression fuel ts
    let result := addChild result (some c)
    let (c, ts) ← mustBe "symbol" ")" ts
    let result := addChild result c
    let (c, ts) ← mustBe "symbol" "\x7b" ts
    let result := addChild result c
    let (c, ts) ← compileStatements fuel ts
    let result := addChild result (some c)
    let (c, ts) ← mustBe "symbol" "\x7d" ts
    let result := addChild result c
    return (.node "whileStatement" "" result, ts)

/-- `compileDo()` -/
def compileDo : Nat → List Token → Except Err (ParseTree × List Token)
  | 0, _ => .error .outOfFuel
  | fuel + 1, ts => do
    let result : Children := []
    let (c, ts) ← mustBe "keyword" "do" ts
    let result := addChild result c
    let (c, ts) ← compileExpression fuel ts
    let result := addChild result (some c)
    let (c, ts) ← mustBe "symbol" ";" ts
    let result := addChild result c
    return (.node "doStatement" "" result, ts)

/-- `compileReturn()` -/
def compileReturn : Nat → List Token → Except Err (ParseTree × List Token)
  | 0, _ => .error .outOfFuel
  | fuel + 1, ts => do
    let result : Children := []
    let (c, ts) ← mustBe "keyword" "return" ts
    let result := addChild result c
    if !have_ "symbol" ";" ts then do
      let (c, ts) ← compileExpression fuel ts
      let result := addChild result (some c)
      return (.node "returnStatement" "" result, ts)
    else
      let result := addChild result (some (.leaf ⟨"symbol", ";"⟩))
      return (.node "returnStatement" "" result, ts)

/-- `compileExpression()` -/
def compileExpression : Nat → List Token → Except Err (ParseTree × List Token)
  | 0, _ => .error .outOfFuel
  | fuel + 1, ts =>
    let result : Children := []
    if have_ "keyword" "skip" ts then do
      let c ← newTokenOfCurrent "keyword" ts
      let result := addChild result c
      let ts := next ts
      return (.node "expression" "" result, ts)
    else if have_ "keyword" "integerConstant" ts || have_ "keyword" "stringConstant" ts
        || have_ "keyword" "keyword" ts || have_ "keyword" "identifier" ts then do
      let (c, ts) ← compileTerm fuel ts
      let result := addChild result c
      return (.node "expression" "" result, ts)
    else if have_ "symbol" "(" ts || have_ "symbol" "-" ts || have_ "symbol" "~" ts then do
      let (c, ts) ← compileTerm fuel ts
      let result := addChild result c
      return (.node "expression" "" result, ts)
    else if have_ "symbol" ";" ts then
      .ok (.node "expression" "" result, ts)
    else do
      let (c, ts) ← compileTerm fuel ts
      let result := addChild result c
      let (result, ts) ← expressionLoop fuel ts result
      return (.node "expression" "" result, ts)

/-- The `while` loop of `compileExpression()`. -/
def expressionLoop : Nat → List Token → Children → Except Err (Children × List Token)
  | 0, _, _ => .error .outOfFuel
  | fuel + 1, ts, result =>
    if have_ "symbol" "+" ts || have_ "symbol" "-" ts || have_ "symbol" "*" ts
        || have_ "symbol" "/" ts || have_ "symbol" "&" ts || have_ "symbol" "|" ts
        || have_ "symbol" "<" ts || have_ "symbol" ">" ts || have_ "symbol" "=" ts then do
      let c ← newTokenOfCurrent "symbol" ts
      let result := addChild result c
      let ts := next ts
      let (c, ts) ← compileTerm fuel ts
      let result := addChild result c
      expressionLoop fuel ts result
    else .ok (result, ts)

/-- `compileTerm()`; `none` is the `NULL` it returns when no alternative applies. -/
def compileTerm : Nat → List Token → Except Err (Option ParseTree × List Token)
  | 0, _ => .error .outOfFuel
  | fuel + 1, ts =>
    let result : Children := []
    if have_ "integerConstant" "" ts then do
      let c ← newTokenOfCurrent "integerConstant" ts
      let result := addChild result c
      let ts := next ts
      return (some (.node "term" "" result), ts)
    else if have_ "stringConstant" "" ts then do
      let c ← newTokenOfCurrent "stringConstant" ts
      let result := addChild result c
      let ts := next ts
      return (some (.node "term" "" result), ts)
    else if have_ "keyword" "true" ts || have_ "keyword" "false" ts
        || have_ "keyword" "null" ts || have_ "keyword" "this" ts then do
      let c ← newTokenOfCurrent "keyword" ts
      let result := addChild result c
      let ts := next ts
      return (some (.node "term" "" result), ts)
    else if have_ "identifier" "" ts then do
      let c ← newTokenOfCurrent "identifier" ts
      let result := addChild result c
      let ts := next ts
      return (some (.node "term" "" result), ts)
    else if have_ "symbol" "(" ts then do
      let (c, ts) ← mustBe "symbol" "(" ts
      let result := addChild result c
      let (c, ts) ← compileExpression fuel ts
      let result := addChild result (some c)
      let (c, ts) ← mustBe "symbol" ")" ts
      let result := addChild result c
      return (some (.node "term" "" result), ts)
    else if have_ "symbol" "-" ts || have_ "symbol" "~" ts then do
      let c ← newTokenOfCurrent "symbol" ts
      let result := addChild result c
      let ts := next ts
      let (c, ts) ← compileTerm fuel ts
      let result := addChild result c
      return (some (.node "term" "" result), ts)
    else .ok (none, ts)

end

/-- The `while` loop of `compileExpressionList()`. -/
def expressionListLoop : Nat → List Token → Children → Except Err (Children × List Token)
  | 0, _, _ => .error .outOfFuel
  | fuel + 1, ts, result =>
    if have_ "symbol" "," ts then do
      let (c, ts) ← mustBe "symbol" "," ts
      let result := addChild result c
      let (c, ts) ← compileExpression fuel ts
      let result := addChild result (some c)
      expressionListLoop fuel ts result
    else .ok (result, ts)

/-- `compileExpressionList()` -/
def compileExpressionList (fuel : Nat) (ts : List Token) : Except Err (ParseTree × List Token) :=
  let result : Children := []
  if have_ "symbol" ")" ts then .ok (.node "expressionList" "" result, ts)
  else do
    let (c, ts) ← compileExpression fuel ts
    let result := addChild result (some c)
    let (result, ts) ← expressionListLoop fuel ts result
    return (.node "expressionList" "" result, ts)

/-- `compileSubroutineBody()` -/
def compileSubroutineBody (fuel : Nat) (ts : List Token) : Except Err (ParseTree × List Token) := do
  let result : Children := []
  let (c, ts) ← mustBe "symbol" "\x7b" ts
  let result := addChild result c
  let (result, ts) ←
    if have_ "keyword" "var" ts then do
      let (c, ts) ← compileVarDec ts
      pure (addChild result (some c), ts)
    else pure (result, ts)
  let (c, ts) ← compileStatements fuel ts
  let result := addChild result (some c)
  let (c, ts) ← mustBe "symbol" "\x7d" ts
  let result := addChild result c
  return (.node "subroutineBody" "" result, ts)

/-- `compileSubroutine()` -/
def compileSubroutine (fuel : Nat) (ts : List Token) : Except Err (ParseTree × List Token) := do
  let result : Children := []
  let c ← newTokenOfCurrent "keyword" ts
  let result := addChild result c
  let ts := next ts
  let cur ← current ts
  let value := cur.value
  let (result, ts) ←
    if value = "void" then do
      let c ← newTokenOfCurrent "keyword" ts
      pure (addChild result c, next ts)
    else if value = "int" ∨ value = "char" ∨ value = "boolean" then do
      let c ← newTokenOfCurrent "keyword" ts
      pure (addChild result c, next ts)
    else if cur.type = "identifier" then do
      let c ← newTokenOfCurrent "identifier" ts
      pure (addChild result c, next ts)
    else .error .parseError
  let c ← newTokenOfCurrent "identifier" ts
  let result := addChild result c
  let ts := next ts
  let (c, ts) ← mustBe "symbol" "(" ts
  let result := addChild result c
  let (c, ts) ← compileParameterList ts
  let result := addChild result (some c)
  let (c, ts) ← mustBe "symbol" ")" ts
  let result := addChild result c
  let (c, ts) ← compileSubroutineBody fuel ts
  let result := addChild result (some c)
  return (.node "subroutine" "" result, ts)

/-- `compileClass()` -/
def compileClass (fuel : Nat) (ts : List Token) : Except Err (ParseTree × List Token) := do
  let result : Children := []
  let (c, ts) ← mustBe "keyword" "class" ts
  let result := addChild result c
  let (c, ts) ← mustBe "identifier" "Main" ts
  let result := addChild result c
  let (c, ts) ← mustBe "symbol" "\x7b" ts
  let result := addChild result c
  let (result, ts) ←
    if have_ "keyword" "static" ts || have_ "keyword" "field" ts then do
      let (c, ts) ← compileClassVarDec ts
      pure (addChild result (some c), ts)
    else pure (result, ts)
  let (result, ts) ←
    if have_ "keyword" "constructor" ts || have_ "keyword" "function" ts
        || have_ "keyword" "method" ts then do
      let (c, ts) ← compileSubroutine fuel ts
      pure (addChild result (some c), ts)
    else pure (result, ts)
  let (c, ts) ← mustBe "symbol" "\x7d" ts
  let result := addChild result c
  return (.node "class" "" result, ts)

/-! ## Predicates for the accounting of consumed tokens -/

/-- `Consumed ts rest vals`: `rest` is what is left of `ts` once a front part is taken away,
and `vals` are the values of the tokens of that part, in order. -/
def Consumed (ts rest : List Token) (vals : List String) : Prop :=
  ∃ consumed, ts = consumed ++ rest ∧ vals = consumed.map Token.value

/-- The state the empty-return branch of `compileReturn()` leaves behind: a `;` at the front. -/
def PendingSemicolon (rest : List Token) : Prop :=
  ∃ r, rest = ⟨"symbol", ";"⟩ :: r

/-- A method that returns a tree accounts for the tokens it consumes. -/
abbrev TreeSpec (f : List Token → Except Err (ParseTree × List Token)) : Prop :=
  ∀ ts tree rest, f ts = .ok (tree, rest) → Consumed ts rest tree.leafValues

/-- As `TreeSpec`, for a method that may return `NULL`. -/
abbrev TermSpec (f : List Token → Except Err (Option ParseTree × List Token)) : Prop :=
  ∀ ts c rest, f ts = .ok (c, rest) → Consumed ts rest (leafValuesOpt c)

/-- A loop that adds children to `result` accounts for the tokens it consumes. -/
abbrev LoopSpec (f : List Token → Children → Except Err (Children × List Token)) : Prop :=
  ∀ ts result result1 rest, f ts result = .ok (result1, rest) →
    ∃ added, leafValuesList result1 = leafValuesList result ++ added ∧ Consumed ts rest added

/-- As `TreeSpec`, unless the empty-return branch was the last thing that ran. -/
abbrev WeakTreeSpec (f : List Token → Except Err (ParseTree × List Token)) : Prop :=
  ∀ ts tree rest, f ts = .ok (tree, rest) →
    Consumed ts rest tree.leafValues ∨ (PendingSemicolon rest ∧ rest <:+ ts)

/-- As `LoopSpec`, unless the empty-return branch was the last thing that ran. -/
abbrev WeakLoopSpec (f : List Token → Children → Except Err (Children × List Token)) : Prop :=
  ∀ ts result result1 rest, f ts result = .ok (result1, rest) →
    (∃ added, leafValuesList result1 = leafValuesList result ++ added ∧ Consumed ts rest added)
      ∨ (PendingSemicolon rest ∧ rest <:+ ts)

/-! ## The state a call leaves behind, also when it throws -/

/-- `mustBe(expectedType, expectedValue)` with the token sequence it leaves in `tokensIn`
given for both ways out: the value returned or the exception thrown, and the sequence after
the call. `next()` runs on the branch where `have` holds only. -/
def mustBeWithState (expectedType expectedValue : String) (tokensIn : List Token) :
    Except Err (Option ParseTree) × List Token :=
  if have_ expectedType expectedValue tokensIn then
    match tokensIn with
    | [] => (.error .endOfInput, tokensIn)
    | t :: _ => (.ok (some (.leaf t)), next tokensIn)
  else (.error .parseError, tokensIn)

/-! ## Fuel -/

/-- `FuelSuffices r`: the result `r` is an answer of the program (a value, ParseError or the
end-of-input condition), not the model running out of fuel. -/
def FuelSuffices {α : Type} (r : Except Err α) : Prop :=
  r ≠ .error .outOfFuel

/-- The fuel is enough for every method of the mutually recursive group on the token
sequences within the bound: four units for each token, and up to three more for the calls
that are made before a token is consumed. -/
abbrev RulesFuel (fuel : Nat) : Prop :=
  (∀ ts, 4 * ts.length + 3 < fuel → FuelSuffices (compileStatements fuel ts)) ∧
  (∀ ts r, 4 * ts.length + 1 < fuel → FuelSuffices (compileStatement fuel ts r)) ∧
  (∀ ts r, 4 * ts.length + 2 < fuel → FuelSuffices (statementsLoop fuel ts r)) ∧
  (∀ ts, 4 * ts.length < fuel → FuelSuffices (compileLet fuel ts)) ∧
  (∀ ts, 4 * ts.length < fuel → FuelSuffices (compileIf fuel ts)) ∧
  (∀ ts, 4 * ts.length < fuel → FuelSuffices (compileWhile fuel ts)) ∧
  (∀ ts, 4 * ts.length < fuel → FuelSuffices (compileDo fuel ts)) ∧
  (∀ ts, 4 * ts.length < fuel → FuelSuffices (compileReturn fuel ts)) ∧
  (∀ ts, 4 * ts.length + 1 < fuel → FuelSuffices (compileExpression fuel ts)) ∧
  (∀ ts r, 4 * ts.length < fuel → FuelSuffices (expressionLoop fuel ts r)) ∧
  (∀ ts, 4 * ts.length < fuel → FuelSuffices (compileTerm fuel ts))

/-- `FuelLe r r1`: the result `r1`, obtained with more fuel, is the result `r`, unless `r` is
the model running out of fuel. -/
def FuelLe {α : Type} (r r1 : Except Err α) : Prop :=
  r = .error .outOfFuel ∨ r = r1

/-- One more unit of fuel does not change the result of a method of the mutually recursive
group, unless that result was the model running out of fuel. -/
abbrev RulesMono (fuel : Nat) : Prop :=
  (∀ ts, FuelLe (compileStatements fuel ts) (compileStatements (fuel + 1) ts)) ∧
  (∀ ts r, FuelLe (compileStatement fuel ts r) (compileStatement (fuel + 1) ts r)) ∧
  (∀ ts r, FuelLe (statementsLoop fuel ts r) (statementsLoop (fuel + 1) ts r)) ∧
  (∀ ts, FuelLe (compileLet fuel ts) (compileLet (fuel + 1) ts)) ∧
  (∀ ts, FuelLe (compileIf fuel ts) (compileIf (fuel + 1) ts)) ∧
  (∀ ts, FuelLe (compileWhile fuel ts) (compileWhile (fuel + 1) ts)) ∧
  (∀ ts, FuelLe (compileDo fuel ts) (compileDo (fuel + 1) ts)) ∧
  (∀ ts, FuelLe (compileReturn fuel ts) (compileReturn (fuel + 1) ts)) ∧
  (∀ ts, FuelLe (compileExpression fuel ts) (compileExpression (fuel + 1) ts)) ∧
  (∀ ts r, FuelLe (expressionLoop fuel ts r) (expressionLoop (fuel + 1) ts r)) ∧
  (∀ ts, FuelLe (compileTerm fuel ts) (compileTerm (fuel + 1) ts))

/-! ## The cursor primitives -/

theorem have_nil (ty v : String) : have_ ty v [] = false := rfl

theorem have_cons (ty v : String) (t : Token) (ts : List Token) :
    have_ ty v (t :: ts) = decide (t.type = ty ∧ t.value = v) := by
  simp only [have_]
  split <;> simp_all

theorem have_eq_true_iff (ty v : String) (ts : List Token) :
    have_ ty v ts = true ↔ ∃ rest, ts = ⟨ty, v⟩ :: rest := by
  cases ts with
  | nil => simp [have_nil]
  | cons t ts =>
    obtain ⟨a, b⟩ := t
    simp only [have_cons, decide_eq_true_eq, List.cons.injEq, Token.mk.injEq]
    constructor
    · rintro ⟨rfl, rfl⟩
      exact ⟨ts, ⟨rfl, rfl⟩, rfl⟩
    · rintro ⟨rest, ⟨h1, h2⟩, -⟩
      exact ⟨h1, h2⟩

theorem mustBe_cons_self (ty v : String) (rest : List Token) :
    mustBe ty v (⟨ty, v⟩ :: rest) = .ok (some (.leaf ⟨ty, v⟩), rest) := by
  simp [mustBe, have_cons, next]

theorem mustBe_of_have_false (ty v : String) (ts : List Token) (h : have_ ty v ts = false) :
    mustBe ty v ts = .error .parseError := by
  simp [mustBe, h]

theorem mustBe_cases (ty v : String) (ts : List Token) :
    mustBe ty v ts = .error .parseError ∨
      ∃ rest, ts = ⟨ty, v⟩ :: rest ∧ mustBe ty v ts = .ok (some (.leaf ⟨ty, v⟩), rest) := by
  cases h : have_ ty v ts with
  | false => exact Or.inl (mustBe_of_have_false ty v ts h)
  | true =>
    obtain ⟨rest, rfl⟩ := (have_eq_true_iff ty v ts).1 h
    exact Or.inr ⟨rest, rfl, mustBe_cons_self ty v rest⟩

theorem mustBe_eq_ok (ty v : String) (ts : List Token) (c : Option ParseTree)
    (rest : List Token) (h : mustBe ty v ts = .ok (c, rest)) :
    ts = ⟨ty, v⟩ :: rest ∧ c = some (.leaf ⟨ty, v⟩) := by
  rcases mustBe_cases ty v ts with h1 | ⟨r, rfl, h1⟩
  · rw [h1] at h; cases h
  · rw [h1] at h; cases h; exact ⟨rfl, rfl⟩

/-! ## compileProgram -/

/-- C1: `compileProgram` succeeds exactly on the literal shape. On every token sequence that
starts `class Main { }` it returns the node labelled "class" with empty value whose four
children are those four token leaves in order, and leaves every later token unconsumed; on
every other token sequence (the short ones included) it raises ParseError. -/
theorem compileProgram_exactly_literal_shape (ts : List Token) :
    (∀ rest, ts = ⟨"keyword", "class"⟩ :: ⟨"identifier", "Main"⟩ :: ⟨"symbol", "\x7b"⟩ ::
          ⟨"symbol", "\x7d"⟩ :: rest →
        compileProgram ts = .ok (.node "class" ""
          [some (.leaf ⟨"keyword", "class"⟩), some (.leaf ⟨"identifier", "Main"⟩),
           some (.leaf ⟨"symbol", "\x7b"⟩), some (.leaf ⟨"symbol", "\x7d"⟩)], rest)) ∧
    ((¬ ∃ rest, ts = ⟨"keyword", "class"⟩ :: ⟨"identifier", "Main"⟩ :: ⟨"symbol", "\x7b"⟩ ::
          ⟨"symbol", "\x7d"⟩ :: rest) →
        compileProgram ts = .error .parseError) := by
  constructor
  · rintro rest rfl
    rfl
  · intro hne
    unfold compileProgram
    rcases mustBe_cases "keyword" "class" ts with h1 | ⟨r1, rfl, h1⟩
    · rw [h1]; rfl
    rw [h1]
    rcases mustBe_cases "identifier" "Main" r1 with h2 | ⟨r2, rfl, h2⟩
    · simp only [bind, Except.bind]; rw [h2]
    rcases mustBe_cases "symbol" "\x7b" r2 with h3 | ⟨r3, rfl, h3⟩
    · simp only [bind, Except.bind]; rw [h2]; simp only []; rw [h3]
    rcases mustBe_cases "symbol" "\x7d" r3 with h4 | ⟨r4, rfl, h4⟩
    · simp only [bind, Except.bind]; rw [h2]; simp only []; rw [h3]; simp only []; rw [h4]
    exact absurd ⟨r4, rfl⟩ hne

/-- The witness of C1: the four tokens followed by one more are accepted and the fifth is left,
and the three tokens `class Main {` alone are rejected. -/
theorem compileProgram_exactly_literal_shape_witness :
    compileProgram [⟨"keyword", "class"⟩, ⟨"identifier", "Main"⟩, ⟨"symbol", "\x7b"⟩,
        ⟨"symbol", "\x7d"⟩, ⟨"keyword", "class"⟩]
      = .ok (.node "class" ""
          [some (.leaf ⟨"keyword", "class"⟩), some (.leaf ⟨"identifier", "Main"⟩),
           some (.leaf ⟨"symbol", "\x7b"⟩), some (.leaf ⟨"symbol", "\x7d"⟩)], [⟨"keyword", "class"⟩]) ∧
    compileProgram [⟨"keyword", "class"⟩, ⟨"identifier", "Main"⟩, ⟨"symbol", "\x7b"⟩]
      = .error .parseError :=
  ⟨(compileProgram_exactly_literal_shape _).1 [⟨"keyword", "class"⟩] rfl,
   (compileProgram_exactly_literal_shape _).2 (by simp)⟩

/-! ## compileClass on the empty class -/

/-- C2, as stated, fails: on `class Main { }` no run of `compileClass` returns a "class" node
with exactly 3 children. -/
theorem compileClass_empty_class_not_three_children :
    ¬ ∃ fuel cs rest,
      compileClass fuel [⟨"keyword", "class"⟩, ⟨"identifier", "Main"⟩, ⟨"symbol", "\x7b"⟩,
        ⟨"symbol", "\x7d"⟩] = .ok (.node "class" "" cs, rest) ∧ cs.length = 3 := by
  rintro ⟨fuel, cs, rest, h, hlen⟩
  have h4 : compileClass fuel [⟨"keyword", "class"⟩, ⟨"identifier", "Main"⟩, ⟨"symbol", "\x7b"⟩,
      ⟨"symbol", "\x7d"⟩] = .ok (.node "class" ""
        [some (.leaf ⟨"keyword", "class"⟩), some (.leaf ⟨"identifier", "Main"⟩),
         some (.leaf ⟨"symbol", "\x7b"⟩), some (.leaf ⟨"symbol", "\x7d"⟩)], []) := rfl
  rw [h4] at h
  cases h
  simp at hlen

/-- C2, amended: on `class Main { }`, whatever the fuel, `compileClass` returns the node
labelled "class" whose children are exactly the 4 token leaves `class`, `Main`, `{`, `}`; it
consumes all four tokens and no child is labelled "classVarDec" or "subroutine". -/
theorem compileClass_empty_class_four_children (fuel : Nat) :
    ∃ cs, compileClass fuel [⟨"keyword", "class"⟩, ⟨"identifier", "Main"⟩, ⟨"symbol", "\x7b"⟩,
        ⟨"symbol", "\x7d"⟩] = .ok (.node "class" "" cs, []) ∧
      cs = [some (.leaf ⟨"keyword", "class"⟩), some (.leaf ⟨"identifier", "Main"⟩),
            some (.leaf ⟨"symbol", "\x7b"⟩), some (.leaf ⟨"symbol", "\x7d"⟩)] ∧
      cs.length = 4 ∧
      cs.all (fun c => match c with
        | some t => t.label != "classVarDec" && t.label != "subroutine"
        | none => true) = true :=
  ⟨_, rfl, rfl, rfl, by decide⟩

/-! ## compileLet, compileReturn and compileTerm at their special cases -/

/-- C3 fails on the code: on `let x = 5 ;` with any identifier value `x`, `compileLet` raises
ParseError once the fuel covers the three nested calls. `compileTerm` tests
`have("integerConstant", "")`, which asks for the empty value, so it returns `NULL` on `5`
without consuming it, and `mustBe("symbol", ";")` then meets `5`. -/
theorem compileLet_integer_constant_parseError (fuel : Nat) (x : String) :
    compileLet (fuel + 3) [⟨"keyword", "let"⟩, ⟨"identifier", x⟩, ⟨"symbol", "="⟩,
        ⟨"integerConstant", "5"⟩, ⟨"symbol", ";"⟩] = .error .parseError := rfl

/-- C8: on every token sequence that begins `return ;`, `compileReturn` returns the
"returnStatement" node with exactly two children, the keyword leaf `return` and a symbol
leaf `;`, and consumes the `return` token only: the `;` is still at the front. -/
theorem compileReturn_empty_return_keeps_semicolon (fuel : Nat) (rest : List Token) :
    compileReturn (fuel + 1) (⟨"keyword", "return"⟩ :: ⟨"symbol", ";"⟩ :: rest)
      = .ok (.node "returnStatement" ""
          [some (.leaf ⟨"keyword", "return"⟩), some (.leaf ⟨"symbol", ";"⟩)],
          ⟨"symbol", ";"⟩ :: rest) := rfl

/-- C9 fails on the code: a front token of type integerConstant, stringConstant or
identifier whose value is not empty (here `5`, `hi`, `x`) makes `compileTerm` return `NULL`
and consume nothing, where the claim has a "term" node with one leaf. -/
theorem compileTerm_constant_with_value_is_null (fuel : Nat) (rest : List Token) :
    compileTerm (fuel + 1) (⟨"integerConstant", "5"⟩ :: rest)
        = .ok (none, ⟨"integerConstant", "5"⟩ :: rest) ∧
    compileTerm (fuel + 1) (⟨"stringConstant", "hi"⟩ :: rest)
        = .ok (none, ⟨"stringConstant", "hi"⟩ :: rest) ∧
    compileTerm (fuel + 1) (⟨"identifier", "x"⟩ :: rest)
        = .ok (none, ⟨"identifier", "x"⟩ :: rest) :=
  ⟨rfl, rfl, rfl⟩

/-- C10: when the front of the token sequence passes none of the tests of `compileTerm`
(or no token is left), `compileTerm` returns the absent result `NULL`, raises nothing and
leaves the token sequence as it was. -/
theorem compileTerm_fallthrough_is_null (fuel : Nat) (ts : List Token)
    (h : ∀ p ∈ [("integerConstant", ""), ("stringConstant", ""), ("keyword", "true"),
        ("keyword", "false"), ("keyword", "null"), ("keyword", "this"), ("identifier", ""),
        ("symbol", "("), ("symbol", "-"), ("symbol", "~")], have_ p.1 p.2 ts = false) :
    compileTerm (fuel + 1) ts = .ok (none, ts) := by
  simp only [List.mem_cons, List.mem_singleton, List.not_mem_nil, or_false, forall_eq_or_imp,
    forall_eq] at h
  obtain ⟨h1, h2, h3, h4, h5, h6, h7, h8, h9, h10⟩ := h
  simp [compileTerm, h1, h2, h3, h4, h5, h6, h7, h8, h9, h10]

/-- The witness of C10: a bare symbol `%`. -/
theorem compileTerm_fallthrough_is_null_witness :
    compileTerm 1 [⟨"symbol", "%"⟩] = .ok (none, [⟨"symbol", "%"⟩]) :=
  compileTerm_fallthrough_is_null 0 [⟨"symbol", "%"⟩] (by decide)

/-! ## Empty regions -/

/-- C7: an empty region is not an error. With symbol `)` at the front `compileParameterList`
and `compileExpressionList` return a childless node; with no token left, or a front token
that is not one of the keywords let, if, while, do, return, `compileStatements` returns a
childless node. Nothing is raised and the token sequence is left unchanged. -/
theorem empty_regions_yield_childless_nodes (fuel : Nat) :
    (∀ rest, compileParameterList (⟨"symbol", ")"⟩ :: rest)
        = .ok (.node "parameterList" "" [], ⟨"symbol", ")"⟩ :: rest)) ∧
    (∀ rest, compileExpressionList fuel (⟨"symbol", ")"⟩ :: rest)
        = .ok (.node "expressionList" "" [], ⟨"symbol", ")"⟩ :: rest)) ∧
    (∀ ts, (∀ t r, ts = t :: r → ¬ (t.type = "keyword" ∧ (t.value = "let" ∨ t.value = "if" ∨
          t.value = "while" ∨ t.value = "do" ∨ t.value = "return"))) →
        compileStatements (fuel + 1) ts = .ok (.node "statements" "" [], ts)) := by
  refine ⟨fun _ => rfl, fun _ => rfl, ?_⟩
  intro ts h
  cases ts with
  | nil => rfl
  | cons t r =>
    have ht := h t r rfl
    simp only [not_and, not_or] at ht
    simp only [compileStatements, have_cons]
    by_cases hk : t.type = "keyword"
    · obtain ⟨a, b, c, d, e⟩ := ht hk
      simp [hk, a, b, c, d, e]
    · simp [hk]

/-- The witness of C7: `compileStatements` on no token at all and on a closing brace. -/
theorem empty_regions_yield_childless_nodes_witness :
    compileStatements 1 [] = .ok (.node "statements" "" [], []) ∧
    compileStatements 1 [⟨"symbol", "\x7d"⟩] = .ok (.node "statements" "" [], [⟨"symbol", "\x7d"⟩]) :=
  ⟨(empty_regions_yield_childless_nodes 0).2.2 [] (by simp),
   (empty_regions_yield_childless_nodes 0).2.2 [⟨"symbol", "\x7d"⟩] (by simp)⟩

/-! ## compileClassVarDec on a list of names -/

theorem mem_intersperse_cases (sep : Token) :
    ∀ (l : List Token) (w : Token), w ∈ l.intersperse sep → w ∈ l ∨ w = sep
  | [], w, h => by simp at h
  | [x], w, h => Or.inl (by simpa using h)
  | x :: y :: l, w, h => by
    rw [List.intersperse_cons₂] at h
    rcases List.mem_cons.1 h with h | h
    · exact Or.inl (h ▸ List.mem_cons_self _ _)
    rcases List.mem_cons.1 h with h | h
    · exact Or.inr h
    rcases mem_intersperse_cases sep (y :: l) w h with h | h
    · exact Or.inl (List.mem_cons_of_mem _ h)
    · exact Or.inr h

theorem map_value_intersperse (sep : Token) :
    ∀ l : List Token,
      (l.intersperse sep).map Token.value = (l.map Token.value).intersperse sep.value
  | [] => rfl
  | [_] => rfl
  | x :: y :: l => by
    have ih := map_value_intersperse sep (y :: l)
    simp only [List.map_cons] at ih
    simp only [List.intersperse_cons₂, List.map_cons, ih]

theorem leafValuesList_append (as bs : List (Option ParseTree)) :
    leafValuesList (as ++ bs) = leafValuesList as ++ leafValuesList bs := by
  induction as with
  | nil => simp [leafValuesList]
  | cons a as ih => simp [leafValuesList, ih]

theorem leafValuesList_leaves (l : List Token) :
    leafValuesList (l.map fun t => some (.leaf t)) = l.map Token.value := by
  induction l with
  | nil => rfl
  | cons t l ih => simp [leafValuesList, leafValuesOpt, ParseTree.leafValues, ih]

theorem classVarDecLoop_names (ws : List Token) (rest : List Token) :
    ∀ result : Children, (∀ w ∈ ws, w.type = "identifier" ∨ w = ⟨"symbol", ","⟩) →
      classVarDecLoop (ws ++ ⟨"symbol", ";"⟩ :: rest) result
        = .ok (result ++ (ws ++ [Token.mk "symbol" ";"]).map (fun t => some (.leaf t)), rest) := by
  induction ws with
  | nil =>
    intro result _
    simp [classVarDecLoop, have_cons, addChild]
  | cons w ws ih =>
    intro result h
    have hw := h w (List.mem_cons_self _ _)
    have ih2 := ih (addChild result (some (.leaf w)))
      (fun x hx => h x (List.mem_cons_of_mem _ hx))
    rcases hw with hw | hw
    · rw [List.cons_append, classVarDecLoop, if_pos hw, ih2]
      simp [addChild]
    · subst hw
      rw [List.cons_append, classVarDecLoop, if_neg (by decide),
        if_pos (by simp [have_cons]), ih2]
      simp [addChild]

/-- C4: on `a b x1 , x2 , ... , xn ;` with any two leading tokens `a`, `b` and identifier
tokens `x1..xn`, `compileClassVarDec` returns the node labelled "classVarDec" whose children
are the leaves of `a` and `b` (retyped as keywords) and of the following tokens, so that the
values read `a, b, x1, ",", x2, ..., xn, ";"` in that order, and it consumes exactly those
tokens: what follows the `;` is left. -/
theorem compileClassVarDec_names_in_order (a b : Token) (xs rest : List Token)
    (hid : ∀ x ∈ xs, x.type = "identifier") :
    ∃ cs, compileClassVarDec (a :: b :: (xs.intersperse ⟨"symbol", ","⟩ ++
          ⟨"symbol", ";"⟩ :: rest)) = .ok (.node "classVarDec" "" cs, rest) ∧
      cs = some (.leaf ⟨"keyword", a.value⟩) :: some (.leaf ⟨"keyword", b.value⟩) ::
          (xs.intersperse (Token.mk "symbol" ",") ++ [Token.mk "symbol" ";"]).map (fun t => some (.leaf t)) ∧
      leafValuesList cs
        = a.value :: b.value :: ((xs.map Token.value).intersperse "," ++ [";"]) := by
  refine ⟨_, ?_, rfl, ?_⟩
  · have hloop := classVarDecLoop_names (xs.intersperse ⟨"symbol", ","⟩) rest
      (addChild (addChild [] (some (.leaf ⟨"keyword", a.value⟩)))
        (some (.leaf ⟨"keyword", b.value⟩)))
      (fun w hw => (mem_intersperse_cases _ xs w hw).imp (hid w) id)
    simp only [compileClassVarDec, newTokenOfCurrent, current, next, bind, Except.bind, hloop]
    simp [addChild, pure, Except.pure]
  · rw [show ∀ (x y : Option ParseTree) l, x :: y :: l = [x, y] ++ l from fun _ _ _ => rfl,
      leafValuesList_append, leafValuesList_leaves, List.map_append, map_value_intersperse]
    rfl

/-- The witness of C4: `static int x , y ;`. -/
theorem compileClassVarDec_names_in_order_witness :
    ∃ cs, compileClassVarDec [⟨"keyword", "static"⟩, ⟨"keyword", "int"⟩, ⟨"identifier", "x"⟩,
          ⟨"symbol", ","⟩, ⟨"identifier", "y"⟩, ⟨"symbol", ";"⟩]
        = .ok (.node "classVarDec" "" cs, []) ∧
      cs = [some (.leaf ⟨"keyword", "static"⟩), some (.leaf ⟨"keyword", "int"⟩),
            some (.leaf ⟨"identifier", "x"⟩), some (.leaf ⟨"symbol", ","⟩),
            some (.leaf ⟨"identifier", "y"⟩), some (.leaf ⟨"symbol", ";"⟩)] ∧
      leafValuesList cs = ["static", "int", "x", ",", "y", ";"] :=
  compileClassVarDec_names_in_order ⟨"keyword", "static"⟩ ⟨"keyword", "int"⟩
    [⟨"identifier", "x"⟩, ⟨"identifier", "y"⟩] [] (by decide)

/-! ## Accounting for the consumed tokens -/

theorem bind_eq_ok_iff {α β : Type} (x : Except Err α) (f : α → Except Err β) (b : β) :
    (x >>= f) = .ok b ↔ ∃ a, x = .ok a ∧ f a = .ok b := by
  cases x <;> simp [bind, Except.bind]

theorem pure_eq_ok_iff {α : Type} (a b : α) :
    (pure a : Except Err α) = .ok b ↔ a = b := by
  simp [pure, Except.pure]

theorem Consumed.refl (ts : List Token) : Consumed ts ts [] :=
  ⟨[], rfl, rfl⟩

theorem Consumed.trans {ts mid rest : List Token} {v1 v2 : List String}
    (h1 : Consumed ts mid v1) (h2 : Consumed mid rest v2) : Consumed ts rest (v1 ++ v2) := by
  obtain ⟨c1, rfl, rfl⟩ := h1
  obtain ⟨c2, rfl, rfl⟩ := h2
  exact ⟨c1 ++ c2, by simp, by simp⟩

theorem Consumed.suffix {ts rest : List Token} {v : List String}
    (h : Consumed ts rest v) : rest <:+ ts := by
  obtain ⟨c, rfl, -⟩ := h
  exact List.suffix_append c rest

theorem mustBe_consumed {ty v : String} {ts rest : List Token} {c : Option ParseTree}
    (h : mustBe ty v ts = .ok (c, rest)) : Consumed ts rest (leafValuesOpt c) := by
  obtain ⟨rfl, rfl⟩ := mustBe_eq_ok ty v ts c rest h
  exact ⟨[⟨ty, v⟩], rfl, rfl⟩

theorem newTokenOfCurrent_consumed {ty : String} {ts : List Token} {c : Option ParseTree}
    (h : newTokenOfCurrent ty ts = .ok c) : Consumed ts (next ts) (leafValuesOpt c) := by
  cases ts with
  | nil => simp [newTokenOfCurrent, current] at h
  | cons t r =>
    simp only [newTokenOfCurrent, current, Except.ok.injEq] at h
    subst h
    exact ⟨[t], rfl, rfl⟩

theorem compileDo_spec (fuel : Nat) (hE : TreeSpec (compileExpression fuel)) :
    TreeSpec (compileDo (fuel + 1)) := by
  intro ts tree rest h
  simp only [compileDo, bind_eq_ok_iff, Prod.exists, pure_eq_ok_iff, Prod.mk.injEq] at h
  obtain ⟨c1, ts1, h1, c2, ts2, h2, c3, ts3, h3, rfl, rfl⟩ := h
  have a1 := mustBe_consumed h1
  have a2 := hE _ _ _ h2
  have a3 := mustBe_consumed h3
  simpa [ParseTree.leafValues, addChild, leafValuesList_append, leafValuesList, leafValuesOpt]
    using a1.trans (a2.trans a3)

theorem consumed_of_weak_before_brace {ts mid rest : List Token} {vals : List String}
    {c : Option ParseTree}
    (hw : Consumed ts mid vals ∨ (PendingSemicolon mid ∧ mid <:+ ts))
    (hm : mustBe "symbol" "\x7d" mid = .ok (c, rest)) : Consumed ts mid vals := by
  rcases hw with h | ⟨⟨r, rfl⟩, -⟩
  · exact h
  · simp [mustBe, have_cons] at hm

theorem compileWhile_spec (fuel : Nat) (hE : TreeSpec (compileExpression fuel))
    (hS : WeakTreeSpec (compileStatements fuel)) : TreeSpec (compileWhile (fuel + 1)) := by
  intro ts tree rest h
  simp only [compileWhile, bind_eq_ok_iff, Prod.exists, pure_eq_ok_iff, Prod.mk.injEq] at h
  obtain ⟨c1, ts1, h1, c2, ts2, h2, c3, ts3, h3, c4, ts4, h4, c5, ts5, h5, c6, ts6, h6,
    c7, ts7, h7, rfl, rfl⟩ := h
  have a1 := mustBe_consumed h1
  have a2 := mustBe_consumed h2
  have a3 := hE _ _ _ h3
  have a4 := mustBe_consumed h4
  have a5 := mustBe_consumed h5
  have a6 := consumed_of_weak_before_brace (hS _ _ _ h6) h7
  have a7 := mustBe_consumed h7
  simpa [ParseTree.leafValues, addChild, leafValuesList_append, leafValuesList, leafValuesOpt]
    using a1.trans (a2.trans (a3.trans (a4.trans (a5.trans (a6.trans a7)))))

theorem compileIf_spec (fuel : Nat) (hE : TreeSpec (compileExpression fuel))
    (hS : WeakTreeSpec (compileStatements fuel)) : TreeSpec (compileIf (fuel + 1)) := by
  intro ts tree rest h
  simp only [compileIf, bind_eq_ok_iff, Prod.exists, pure_eq_ok_iff, Prod.mk.injEq] at h
  obtain ⟨c1, ts1, h1, c2, ts2, h2, c3, ts3, h3, c4, ts4, h4, c5, ts5, h5, c6, ts6, h6,
    c7, ts7, h7, h⟩ := h
  have a1 := mustBe_consumed h1
  have a2 := mustBe_consumed h2
  have a3 := hE _ _ _ h3
  have a4 := mustBe_consumed h4
  have a5 := mustBe_consumed h5
  have a6 := consumed_of_weak_before_brace (hS _ _ _ h6) h7
  have a7 := mustBe_consumed h7
  have a := a1.trans (a2.trans (a3.trans (a4.trans (a5.trans (a6.trans a7)))))
  split at h
  · simp only [bind_eq_ok_iff, Prod.exists, pure_eq_ok_iff, Prod.mk.injEq] at h
    obtain ⟨c8, ts8, h8, c9, ts9, h9, c10, ts10, h10, c11, ts11, h11, rfl, rfl⟩ := h
    have a8 := mustBe_consumed h8
    have a9 := mustBe_consumed h9
    have a10 := consumed_of_weak_before_brace (hS _ _ _ h10) h11
    have a11 := mustBe_consumed h11
    simpa [ParseTree.leafValues, addChild, leafValuesList_append, leafValuesList, leafValuesOpt]
      using a.trans (a8.trans (a9.trans (a10.trans a11)))
  · simp only [pure_eq_ok_iff, Prod.mk.injEq] at h
    obtain ⟨rfl, rfl⟩ := h
    simpa [ParseTree.leafValues, addChild, leafValuesList_append, leafValuesList, leafValuesOpt]
      using a

theorem compileLet_spec (fuel : Nat) (hE : TreeSpec (compileExpression fuel)) :
    TreeSpec (compileLet (fuel + 1)) := by
  intro ts tree rest h
  simp only [compileLet, bind_eq_ok_iff, Prod.exists, pure_eq_ok_iff, Prod.mk.injEq] at h
  obtain ⟨c1, ts1, h1, c2, h2, h⟩ := h
  have a1 := mustBe_consumed h1
  have a2 := newTokenOfCurrent_consumed h2
  split at h
  · simp only [bind_eq_ok_iff, Prod.exists, pure_eq_ok_iff, Prod.mk.injEq] at h
    obtain ⟨c3, ts3, h3, c4, ts4, h4, c5, ts5, h5, r, ts6, ⟨rfl, rfl⟩, c7, ts7, h7,
      c8, ts8, h8, c9, ts9, h9, rfl, rfl⟩ := h
    have a3 := mustBe_consumed h3
    have a4 := hE _ _ _ h4
    have a5 := mustBe_consumed h5
    have a7 := mustBe_consumed h7
    have a8 := hE _ _ _ h8
    have a9 := mustBe_consumed h9
    simpa [ParseTree.leafValues, addChild, leafValuesList_append, leafValuesList, leafValuesOpt]
      using a1.trans (a2.trans (a3.trans (a4.trans (a5.trans (a7.trans (a8.trans a9))))))
  · simp only [bind_eq_ok_iff, Prod.exists, pure_eq_ok_iff, Prod.mk.injEq] at h
    obtain ⟨r, ts6, ⟨rfl, rfl⟩, c7, ts7, h7, c8, ts8, h8, c9, ts9, h9, rfl, rfl⟩ := h
    have a7 := mustBe_consumed h7
    have a8 := hE _ _ _ h8
    have a9 := mustBe_consumed h9
    simpa [ParseTree.leafValues, addChild, leafValuesList_append, leafValuesList, leafValuesOpt]
      using a1.trans (a2.trans (a7.trans (a8.trans a9)))

theorem compileReturn_spec (fuel : Nat) (hE : TreeSpec (compileExpression fuel)) :
    WeakTreeSpec (compileReturn (fuel + 1)) := by
  intro ts tree rest h
  simp only [compileReturn, bind_eq_ok_iff, Prod.exists, pure_eq_ok_iff, Prod.mk.injEq] at h
  obtain ⟨c1, ts1, h1, h⟩ := h
  have a1 := mustBe_consumed h1
  split at h
  · simp only [bind_eq_ok_iff, Prod.exists, pure_eq_ok_iff, Prod.mk.injEq] at h
    obtain ⟨c2, ts2, h2, rfl, rfl⟩ := h
    have a2 := hE _ _ _ h2
    left
    simpa [ParseTree.leafValues, addChild, leafValuesList_append, leafValuesList, leafValuesOpt]
      using a1.trans a2
  · rename_i hsemi
    simp only [pure_eq_ok_iff, Prod.mk.injEq] at h
    obtain ⟨rfl, rfl⟩ := h
    right
    simp only [Bool.not_eq_true, Bool.not_eq_false, Bool.not_eq_true'] at hsemi
    exact ⟨(have_eq_true_iff _ _ _).1 (by simpa using hsemi), a1.suffix⟩

theorem compileTerm_spec (fuel : Nat) (hE : TreeSpec (compileExpression fuel))
    (hT : TermSpec (compileTerm fuel)) : TermSpec (compileTerm (fuel + 1)) := by
  intro ts tree rest h
  simp only [compileTerm] at h
  split_ifs at h
  · simp only [bind_eq_ok_iff, pure_eq_ok_iff, Prod.mk.injEq] at h
    obtain ⟨c1, h1, rfl, rfl⟩ := h
    simpa [ParseTree.leafValues, addChild, leafValuesList, leafValuesOpt]
      using newTokenOfCurrent_consumed h1
  · simp only [bind_eq_ok_iff, pure_eq_ok_iff, Prod.mk.injEq] at h
    obtain ⟨c1, h1, rfl, rfl⟩ := h
    simpa [ParseTree.leafValues, addChild, leafValuesList, leafValuesOpt]
      using newTokenOfCurrent_consumed h1
  · simp only [bind_eq_ok_iff, pure_eq_ok_iff, Prod.mk.injEq] at h
    obtain ⟨c1, h1, rfl, rfl⟩ := h
    simpa [ParseTree.leafValues, addChild, leafValuesList, leafValuesOpt]
      using newTokenOfCurrent_consumed h1
  · simp only [bind_eq_ok_iff, pure_eq_ok_iff, Prod.mk.injEq] at h
    obtain ⟨c1, h1, rfl, rfl⟩ := h
    simpa [ParseTree.leafValues, addChild, leafValuesList, leafValuesOpt]
      using newTokenOfCurrent_consumed h1
  · simp only [bind_eq_ok_iff, Prod.exists, pure_eq_ok_iff, Prod.mk.injEq] at h
    obtain ⟨c1, ts1, h1, c2, ts2, h2, c3, ts3, h3, rfl, rfl⟩ := h
    have a1 := mustBe_consumed h1
    have a2 := hE _ _ _ h2
    have a3 := mustBe_consumed h3
    simpa [ParseTree.leafValues, addChild, leafValuesList_append, leafValuesList, leafValuesOpt]
      using a1.trans (a2.trans a3)
  · simp only [bind_eq_ok_iff, Prod.exists, pure_eq_ok_iff, Prod.mk.injEq] at h
    obtain ⟨c1, h1, c2, ts2, h2, rfl, rfl⟩ := h
    have a1 := newTokenOfCurrent_consumed h1
    have a2 := hT _ _ _ h2
    simpa [ParseTree.leafValues, addChild, leafValuesList_append, leafValuesList, leafValuesOpt]
      using a1.trans a2
  · simp only [Except.ok.injEq, Prod.mk.injEq] at h
    obtain ⟨rfl, rfl⟩ := h
    exact Consumed.refl _

theorem expressionLoop_spec (fuel : Nat) (hT : TermSpec (compileTerm fuel))
    (hL : LoopSpec (expressionLoop fuel)) : LoopSpec (expressionLoop (fuel + 1)) := by
  intro ts result result1 rest h
  simp only [expressionLoop] at h
  split_ifs at h
  · simp only [bind_eq_ok_iff, Prod.exists, pure_eq_ok_iff, Prod.mk.injEq] at h
    obtain ⟨c1, h1, c2, ts2, h2, h3⟩ := h
    have a1 := newTokenOfCurrent_consumed h1
    have a2 := hT _ _ _ h2
    obtain ⟨added, hadd, a3⟩ := hL _ _ _ _ h3
    refine ⟨leafValuesOpt c1 ++ (leafValuesOpt c2 ++ added), ?_, a1.trans (a2.trans a3)⟩
    simp [hadd, addChild, leafValuesList_append, leafValuesList]
  · simp only [Except.ok.injEq, Prod.mk.injEq] at h
    obtain ⟨rfl, rfl⟩ := h
    exact ⟨[], by simp, Consumed.refl _⟩

theorem compileExpression_spec (fuel : Nat) (hT : TermSpec (compileTerm fuel))
    (hL : LoopSpec (expressionLoop fuel)) : TreeSpec (compileExpression (fuel + 1)) := by
  intro ts tree rest h
  simp only [compileExpression] at h
  split_ifs at h
  · simp only [bind_eq_ok_iff, pure_eq_ok_iff, Prod.mk.injEq] at h
    obtain ⟨c1, h1, rfl, rfl⟩ := h
    simpa [ParseTree.leafValues, addChild, leafValuesList, leafValuesOpt]
      using newTokenOfCurrent_consumed h1
  · simp only [bind_eq_ok_iff, Prod.exists, pure_eq_ok_iff, Prod.mk.injEq] at h
    obtain ⟨c1, ts1, h1, rfl, rfl⟩ := h
    simpa [ParseTree.leafValues, addChild, leafValuesList] using hT _ _ _ h1
  · simp only [bind_eq_ok_iff, Prod.exists, pure_eq_ok_iff, Prod.mk.injEq] at h
    obtain ⟨c1, ts1, h1, rfl, rfl⟩ := h
    simpa [ParseTree.leafValues, addChild, leafValuesList] using hT _ _ _ h1
  · simp only [Except.ok.injEq, Prod.mk.injEq] at h
    obtain ⟨rfl, rfl⟩ := h
    exact Consumed.refl _
  · simp only [bind_eq_ok_iff, Prod.exists, pure_eq_ok_iff, Prod.mk.injEq] at h
    obtain ⟨c1, ts1, h1, r, ts2, h2, rfl, rfl⟩ := h
    have a1 := hT _ _ _ h1
    obtain ⟨added, hadd, a2⟩ := hL _ _ _ _ h2
    have := a1.trans a2
    simpa [ParseTree.leafValues, hadd, addChild, leafValuesList] using this

theorem compileStatement_spec (fuel : Nat) (hLet : TreeSpec (compileLet fuel))
    (hIf : TreeSpec (compileIf fuel)) (hWhile : TreeSpec (compileWhile fuel))
    (hDo : TreeSpec (compileDo fuel)) (hReturn : WeakTreeSpec (compileReturn fuel)) :
    WeakLoopSpec (compileStatement (fuel + 1)) := by
  intro ts result result1 rest h
  simp only [compileStatement] at h
  split_ifs at h
  · simp only [bind_eq_ok_iff, Prod.exists, pure_eq_ok_iff, Prod.mk.injEq] at h
    obtain ⟨c1, ts1, h1, rfl, rfl⟩ := h
    exact Or.inl ⟨_, by simp [addChild, leafValuesList_append, leafValuesList, leafValuesOpt],
      hLet _ _ _ h1⟩
  · simp only [bind_eq_ok_iff, Prod.exists, pure_eq_ok_iff, Prod.mk.injEq] at h
    obtain ⟨c1, ts1, h1, rfl, rfl⟩ := h
    exact Or.inl ⟨_, by simp [addChild, leafValuesList_append, leafValuesList, leafValuesOpt],
      hIf _ _ _ h1⟩
  · simp only [bind_eq_ok_iff, Prod.exists, pure_eq_ok_iff, Prod.mk.injEq] at h
    obtain ⟨c1, ts1, h1, rfl, rfl⟩ := h
    exact Or.inl ⟨_, by simp [addChild, leafValuesList_append, leafValuesList, leafValuesOpt],
      hWhile _ _ _ h1⟩
  · simp only [bind_eq_ok_iff, Prod.exists, pure_eq_ok_iff, Prod.mk.injEq] at h
    obtain ⟨c1, ts1, h1, rfl, rfl⟩ := h
    exact Or.inl ⟨_, by simp [addChild, leafValuesList_append, leafValuesList, leafValuesOpt],
      hDo _ _ _ h1⟩
  · simp only [bind_eq_ok_iff, Prod.exists, pure_eq_ok_iff, Prod.mk.injEq] at h
    obtain ⟨c1, ts1, h1, rfl, rfl⟩ := h
    rcases hReturn _ _ _ h1 with a | a
    · exact Or.inl ⟨_, by simp [addChild, leafValuesList_append, leafValuesList, leafValuesOpt],
        a⟩
    · exact Or.inr a
  · simp only [Except.ok.injEq, Prod.mk.injEq] at h
    obtain ⟨rfl, rfl⟩ := h
    exact Or.inl ⟨[], by simp, Consumed.refl _⟩

theorem statementsLoop_of_pending {fuel : Nat} {ts rest : List Token} {result result1 : Children}
    (hp : PendingSemicolon ts) (h : statementsLoop fuel ts result = .ok (result1, rest)) :
    result1 = result ∧ rest = ts := by
  obtain ⟨r, rfl⟩ := hp
  cases fuel with
  | zero => simp [statementsLoop] at h
  | succ fuel =>
    simp only [statementsLoop, have_cons] at h
    simp at h
    exact ⟨h.1.symm, h.2.symm⟩

theorem statementsLoop_spec (fuel : Nat) (hD : WeakLoopSpec (compileStatement fuel))
    (hL : WeakLoopSpec (statementsLoop fuel)) : WeakLoopSpec (statementsLoop (fuel + 1)) := by
  intro ts result result1 rest h
  simp only [statementsLoop] at h
  split_ifs at h
  · simp only [bind_eq_ok_iff, Prod.exists] at h
    obtain ⟨r1, ts1, h1, h2⟩ := h
    rcases hD _ _ _ _ h1 with ⟨add1, hadd1, a1⟩ | ⟨hp, hs⟩
    · rcases hL _ _ _ _ h2 with ⟨add2, hadd2, a2⟩ | ⟨hp, hs⟩
      · exact Or.inl ⟨add1 ++ add2, by simp [hadd2, hadd1], a1.trans a2⟩
      · exact Or.inr ⟨hp, hs.trans a1.suffix⟩
    · obtain ⟨-, rfl⟩ := statementsLoop_of_pending hp h2
      exact Or.inr ⟨hp, hs⟩
  · simp only [Except.ok.injEq, Prod.mk.injEq] at h
    obtain ⟨rfl, rfl⟩ := h
    exact Or.inl ⟨[], by simp, Consumed.refl _⟩

theorem compileStatements_spec (fuel : Nat) (hD : WeakLoopSpec (compileStatement fuel))
    (hL : WeakLoopSpec (statementsLoop fuel)) : WeakTreeSpec (compileStatements (fuel + 1)) := by
  intro ts tree rest h
  simp only [compileStatements] at h
  split_ifs at h
  · simp only [Except.ok.injEq, Prod.mk.injEq] at h
    obtain ⟨rfl, rfl⟩ := h
    exact Or.inl (Consumed.refl _)
  · simp only [bind_eq_ok_iff, Prod.exists, pure_eq_ok_iff, Prod.mk.injEq] at h
    obtain ⟨r1, ts1, h1, r2, ts2, h2, rfl, rfl⟩ := h
    rcases hD _ _ _ _ h1 with ⟨add1, hadd1, a1⟩ | ⟨hp, hs⟩
    · rcases hL _ _ _ _ h2 with ⟨add2, hadd2, a2⟩ | ⟨hp, hs⟩
      · left
        have := a1.trans a2
        simpa [ParseTree.leafValues, hadd2, hadd1, leafValuesList] using this
      · exact Or.inr ⟨hp, hs.trans a1.suffix⟩
    · obtain ⟨-, rfl⟩ := statementsLoop_of_pending hp h2
      exact Or.inr ⟨hp, hs⟩

/-- Every method of the mutually recursive group accounts for the tokens it consumes, for
every fuel; the three that can end in the empty-return branch do so in the weak form. -/
theorem rules_account (fuel : Nat) :
    WeakTreeSpec (compileStatements fuel) ∧ WeakLoopSpec (compileStatement fuel) ∧
    WeakLoopSpec (statementsLoop fuel) ∧ TreeSpec (compileLet fuel) ∧
    TreeSpec (compileIf fuel) ∧ TreeSpec (compileWhile fuel) ∧ TreeSpec (compileDo fuel) ∧
    WeakTreeSpec (compileReturn fuel) ∧ TreeSpec (compileExpression fuel) ∧
    LoopSpec (expressionLoop fuel) ∧ TermSpec (compileTerm fuel) := by
  induction fuel with
  | zero =>
    refine ⟨?_, ?_, ?_, ?_, ?_, ?_, ?_, ?_, ?_, ?_, ?_⟩ <;> intro ts <;> intros <;>
      simp_all [compileStatements, compileStatement, statementsLoop, compileLet, compileIf,
        compileWhile, compileDo, compileReturn, compileExpression, expressionLoop, compileTerm]
  | succ fuel ih =>
    obtain ⟨hS, hD, hSL, hLet, hIf, hWhile, hDo, hRet, hE, hEL, hT⟩ := ih
    exact ⟨compileStatements_spec fuel hD hSL, compileStatement_spec fuel hLet hIf hWhile hDo hRet,
      statementsLoop_spec fuel hD hSL, compileLet_spec fuel hE, compileIf_spec fuel hE hS,
      compileWhile_spec fuel hE hS, compileDo_spec fuel hE, compileReturn_spec fuel hE,
      compileExpression_spec fuel hT hEL, expressionLoop_spec fuel hT hEL,
      compileTerm_spec fuel hE hT⟩

theorem compileProgram_spec : TreeSpec compileProgram := by
  intro ts tree rest h
  simp only [compileProgram, bind_eq_ok_iff, Prod.exists, pure_eq_ok_iff, Prod.mk.injEq] at h
  obtain ⟨c1, ts1, h1, c2, ts2, h2, c3, ts3, h3, c4, ts4, h4, rfl, rfl⟩ := h
  have a1 := mustBe_consumed h1
  have a2 := mustBe_consumed h2
  have a3 := mustBe_consumed h3
  have a4 := mustBe_consumed h4
  simpa [ParseTree.leafValues, addChild, leafValuesList_append, leafValuesList, leafValuesOpt]
    using a1.trans (a2.trans (a3.trans a4))

theorem classVarDecLoop_spec : LoopSpec classVarDecLoop := by
  intro ts
  induction ts with
  | nil =>
    intro result result1 rest h
    simp [classVarDecLoop] at h
  | cons t ts ih =>
    intro result result1 rest h
    have at1 : Consumed (t :: ts) ts [t.value] := ⟨[t], rfl, rfl⟩
    simp only [classVarDecLoop] at h
    split_ifs at h
    · obtain ⟨added, hadd, a⟩ := ih _ _ _ h
      exact ⟨[t.value] ++ added,
        by simp [hadd, addChild, leafValuesList_append, leafValuesList, leafValuesOpt,
          ParseTree.leafValues], at1.trans a⟩
    · obtain ⟨added, hadd, a⟩ := ih _ _ _ h
      exact ⟨[t.value] ++ added,
        by simp [hadd, addChild, leafValuesList_append, leafValuesList, leafValuesOpt,
          ParseTree.leafValues], at1.trans a⟩
    · simp only [Except.ok.injEq, Prod.mk.injEq] at h
      obtain ⟨rfl, rfl⟩ := h
      exact ⟨[t.value],
        by simp [addChild, leafValuesList_append, leafValuesList, leafValuesOpt,
          ParseTree.leafValues], at1⟩

theorem compileClassVarDec_spec : TreeSpec compileClassVarDec := by
  intro ts tree rest h
  simp only [compileClassVarDec, bind_eq_ok_iff, Prod.exists, pure_eq_ok_iff,
    Prod.mk.injEq] at h
  obtain ⟨c1, h1, c2, h2, r, ts3, h3, rfl, rfl⟩ := h
  have a1 := newTokenOfCurrent_consumed h1
  have a2 := newTokenOfCurrent_consumed h2
  obtain ⟨added, hadd, a3⟩ := classVarDecLoop_spec _ _ _ _ h3
  have := a1.trans (a2.trans a3)
  simpa [ParseTree.leafValues, hadd, addChild, leafValuesList_append, leafValuesList] using this

theorem parameterListLoop_spec_aux (n : Nat) :
    ∀ ts : List Token, ts.length ≤ n → ∀ result result1 rest,
      parameterListLoop ts result = .ok (result1, rest) →
      ∃ added, leafValuesList result1 = leafValuesList result ++ added ∧
        Consumed ts rest added := by
  induction n with
  | zero =>
    intro ts hlen result result1 rest h
    obtain rfl : ts = [] := List.eq_nil_of_length_eq_zero (Nat.le_zero.1 hlen)
    rw [parameterListLoop.eq_def] at h
    simp only [have_nil, Bool.false_eq_true, if_false, Except.ok.injEq, Prod.mk.injEq] at h
    obtain ⟨rfl, rfl⟩ := h
    exact ⟨[], by simp, Consumed.refl _⟩
  | succ n ih =>
    intro ts hlen result result1 rest h
    rw [parameterListLoop.eq_def] at h
    split_ifs at h
    · split at h
      · rename_i comma ty name ts1 hc
        obtain ⟨added, hadd, a⟩ :=
          ih ts1 (by simp only [List.length_cons] at hlen; omega) _ _ _ h
        have a0 : Consumed (comma :: ty :: name :: ts1) ts1 [comma.value, ty.value, name.value] :=
          ⟨[comma, ty, name], rfl, rfl⟩
        exact ⟨[comma.value, ty.value, name.value] ++ added,
          by simp [hadd, addChild, leafValuesList_append, leafValuesList, leafValuesOpt,
            ParseTree.leafValues], a0.trans a⟩
      · simp at h
    · simp only [Except.ok.injEq, Prod.mk.injEq] at h
      obtain ⟨rfl, rfl⟩ := h
      exact ⟨[], by simp, Consumed.refl _⟩

theorem parameterListLoop_spec : LoopSpec parameterListLoop :=
  fun ts => parameterListLoop_spec_aux ts.length ts (Nat.le_refl _)

theorem compileParameterList_spec : TreeSpec compileParameterList := by
  intro ts tree rest h
  simp only [compileParameterList] at h
  split_ifs at h
  · simp only [Except.ok.injEq, Prod.mk.injEq] at h
    obtain ⟨rfl, rfl⟩ := h
    exact Consumed.refl _
  · simp only [bind_eq_ok_iff, Prod.exists, pure_eq_ok_iff, Prod.mk.injEq] at h
    obtain ⟨c1, h1, c2, h2, r, ts3, h3, rfl, rfl⟩ := h
    have a1 := newTokenOfCurrent_consumed h1
    have a2 := newTokenOfCurrent_consumed h2
    obtain ⟨added, hadd, a3⟩ := parameterListLoop_spec _ _ _ _ h3
    have := a1.trans (a2.trans a3)
    simpa [ParseTree.leafValues, hadd, addChild, leafValuesList_append, leafValuesList]
      using this

theorem varDecLoop_spec_aux (n : Nat) :
    ∀ ts : List Token, ts.length ≤ n → ∀ result result1 rest,
      varDecLoop ts result = .ok (result1, rest) →
      ∃ added, leafValuesList result1 = leafValuesList result ++ added ∧
        Consumed ts rest added := by
  induction n with
  | zero =>
    intro ts hlen result result1 rest h
    obtain rfl : ts = [] := List.eq_nil_of_length_eq_zero (Nat.le_zero.1 hlen)
    rw [varDecLoop.eq_def] at h
    simp only [have_nil, Bool.false_eq_true, if_false, Except.ok.injEq, Prod.mk.injEq] at h
    obtain ⟨rfl, rfl⟩ := h
    exact ⟨[], by simp, Consumed.refl _⟩
  | succ n ih =>
    intro ts hlen result result1 rest h
    rw [varDecLoop.eq_def] at h
    split_ifs at h
    · split at h
      · rename_i comma name ts1 hc
        obtain ⟨added, hadd, a⟩ :=
          ih ts1 (by simp only [List.length_cons] at hlen; omega) _ _ _ h
        have a0 : Consumed (comma :: name :: ts1) ts1 [comma.value, name.value] :=
          ⟨[comma, name], rfl, rfl⟩
        exact ⟨[comma.value, name.value] ++ added,
          by simp [hadd, addChild, leafValuesList_append, leafValuesList, leafValuesOpt,
            ParseTree.leafValues], a0.trans a⟩
      · simp at h
    · simp only [Except.ok.injEq, Prod.mk.injEq] at h
      obtain ⟨rfl, rfl⟩ := h
      exact ⟨[], by simp, Consumed.refl _⟩

theorem varDecLoop_spec : LoopSpec varDecLoop :=
  fun ts => varDecLoop_spec_aux ts.length ts (Nat.le_refl _)

theorem compileVarDec_spec : TreeSpec compileVarDec := by
  intro ts tree rest h
  simp only [compileVarDec, bind_eq_ok_iff, Prod.exists, pure_eq_ok_iff, Prod.mk.injEq] at h
  obtain ⟨c1, ts1, h1, c2, h2, c3, h3, r, ts4, h4, c5, ts5, h5, rfl, rfl⟩ := h
  have a1 := mustBe_consumed h1
  have a2 := newTokenOfCurrent_consumed h2
  have a3 := newTokenOfCurrent_consumed h3
  obtain ⟨added, hadd, a4⟩ := varDecLoop_spec _ _ _ _ h4
  have a5 := mustBe_consumed h5
  have := a1.trans (a2.trans (a3.trans (a4.trans a5)))
  simpa [ParseTree.leafValues, hadd, addChild, leafValuesList_append, leafValuesList] using this

theorem compileSubroutineBody_spec (fuel : Nat) : TreeSpec (compileSubroutineBody fuel) := by
  intro ts tree rest h
  have hS := (rules_account fuel).1
  simp only [compileSubroutineBody, bind_eq_ok_iff, Prod.exists, pure_eq_ok_iff,
    Prod.mk.injEq] at h
  obtain ⟨c1, ts1, h1, h⟩ := h
  have a1 := mustBe_consumed h1
  split at h
  · simp only [bind_eq_ok_iff, Prod.exists, pure_eq_ok_iff, Prod.mk.injEq] at h
    obtain ⟨c2, ts2, h2, r, ts3, ⟨rfl, rfl⟩, c4, ts4, h4, c5, ts5, h5, rfl, rfl⟩ := h
    have a2 := compileVarDec_spec _ _ _ h2
    have a4 := consumed_of_weak_before_brace (hS _ _ _ h4) h5
    have a5 := mustBe_consumed h5
    simpa [ParseTree.leafValues, addChild, leafValuesList_append, leafValuesList, leafValuesOpt]
      using a1.trans (a2.trans (a4.trans a5))
  · simp only [bind_eq_ok_iff, Prod.exists, pure_eq_ok_iff, Prod.mk.injEq] at h
    obtain ⟨r, ts3, ⟨rfl, rfl⟩, c4, ts4, h4, c5, ts5, h5, rfl, rfl⟩ := h
    have a4 := consumed_of_weak_before_brace (hS _ _ _ h4) h5
    have a5 := mustBe_consumed h5
    simpa [ParseTree.leafValues, addChild, leafValuesList_append, leafValuesList, leafValuesOpt]
      using a1.trans (a4.trans a5)

theorem compileSubroutine_spec (fuel : Nat) : TreeSpec (compileSubroutine fuel) := by
  intro ts tree rest h
  simp only [compileSubroutine, bind_eq_ok_iff] at h
  obtain ⟨c1, h1, cur, -, h⟩ := h
  have a1 := newTokenOfCurrent_consumed h1
  have key : ∀ c2, newTokenOfCurrent c2 (next ts) >>= (fun c => do
        let y ← (pure (addChild (addChild [] c1) c, next (next ts)) :
          Except Err (Children × List Token))
        let c ← newTokenOfCurrent "identifier" y.2
        let d ← mustBe "symbol" "(" (next y.2)
        let d1 ← compileParameterList d.2
        let d2 ← mustBe "symbol" ")" d1.2
        let d3 ← compileSubroutineBody fuel d2.2
        pure (ParseTree.node "subroutine" ""
          (addChild (addChild (addChild (addChild (addChild y.1 c) d.1) (some d1.1)) d2.1)
            (some d3.1)), d3.2)) = .ok (tree, rest) →
      Consumed ts rest tree.leafValues := by
    intro ty h
    simp only [bind_eq_ok_iff, Prod.exists, pure_eq_ok_iff, Prod.mk.injEq] at h
    obtain ⟨c2, h2, r, ts2, ⟨rfl, rfl⟩, c3, h3, c4, ts4, h4, c5, ts5, h5, c6, ts6, h6,
      c7, ts7, h7, rfl, rfl⟩ := h
    have a2 := newTokenOfCurrent_consumed h2
    have a3 := newTokenOfCurrent_consumed h3
    have a4 := mustBe_consumed h4
    have a5 := compileParameterList_spec _ _ _ h5
    have a6 := mustBe_consumed h6
    have a7 := compileSubroutineBody_spec fuel _ _ _ h7
    simpa [ParseTree.leafValues, addChild, leafValuesList_append, leafValuesList, leafValuesOpt]
      using a1.trans (a2.trans (a3.trans (a4.trans (a5.trans (a6.trans a7)))))
  split_ifs at h
  · exact key _ h
  · exact key _ h
  · exact key _ h
  · simp [bind, Except.bind] at h

theorem compileClass_spec (fuel : Nat) : TreeSpec (compileClass fuel) := by
  intro ts tree rest h
  simp only [compileClass, bind_eq_ok_iff, Prod.exists] at h
  obtain ⟨c1, ts1, h1, c2, ts2, h2, c3, ts3, h3, h⟩ := h
  have a1 := mustBe_consumed h1
  have a2 := mustBe_consumed h2
  have a3 := mustBe_consumed h3
  have a := a1.trans (a2.trans a3)
  have key : ∀ (r4 : Children) (ts4 : List Token) (add4 : List String),
      leafValuesList r4 = leafValuesOpt c1 ++ (leafValuesOpt c2 ++ leafValuesOpt c3) ++ add4 →
      Consumed ts3 ts4 add4 →
      (if (have_ "keyword" "constructor" ts4 || have_ "keyword" "function" ts4
            || have_ "keyword" "method" ts4) = true then do
          let d ← compileSubroutine fuel ts4
          let y ← (pure (addChild r4 (some d.1), d.2) : Except Err (Children × List Token))
          let d ← mustBe "symbol" "\x7d" y.2
          pure (ParseTree.node "class" "" (addChild y.1 d.1), d.2)
        else do
          let y ← (pure (r4, ts4) : Except Err (Children × List Token))
          let d ← mustBe "symbol" "\x7d" y.2
          pure (ParseTree.node "class" "" (addChild y.1 d.1), d.2)) = .ok (tree, rest) →
      Consumed ts rest tree.leafValues := by
    intro r4 ts4 add4 hadd4 a4 h
    split_ifs at h
    · simp only [bind_eq_ok_iff, Prod.exists, pure_eq_ok_iff, Prod.mk.injEq] at h
      obtain ⟨c5, ts5, h5, r, t, ⟨rfl, rfl⟩, c6, ts6, h6, rfl, rfl⟩ := h
      have a5 := compileSubroutine_spec fuel _ _ _ h5
      have a6 := mustBe_consumed h6
      have := a.trans (a4.trans (a5.trans a6))
      simpa [ParseTree.leafValues, addChild, leafValuesList_append, leafValuesList, leafValuesOpt,
        hadd4] using this
    · simp only [bind_eq_ok_iff, Prod.exists, pure_eq_ok_iff, Prod.mk.injEq] at h
      obtain ⟨r, t, ⟨rfl, rfl⟩, c6, ts6, h6, rfl, rfl⟩ := h
      have a6 := mustBe_consumed h6
      have := a.trans (a4.trans a6)
      simpa [ParseTree.leafValues, addChild, leafValuesList_append, leafValuesList, leafValuesOpt,
        hadd4] using this
  split_ifs at h
  · simp only [bind_eq_ok_iff, Prod.exists, pure_eq_ok_iff, Prod.mk.injEq] at h
    obtain ⟨c4, ts4, h4, r, t, ⟨rfl, rfl⟩, h⟩ := h
    exact key _ _ _ (by simp [addChild, leafValuesList_append, leafValuesList, leafValuesOpt])
      (compileClassVarDec_spec _ _ _ h4) h
  · simp only [bind_eq_ok_iff, Prod.exists, pure_eq_ok_iff, Prod.mk.injEq] at h
    obtain ⟨r, t, ⟨rfl, rfl⟩, h⟩ := h
    exact key _ _ [] (by simp [addChild, leafValuesList_append, leafValuesList])
      (Consumed.refl _) h

theorem expressionListLoop_spec (fuel : Nat) : LoopSpec (expressionListLoop fuel) := by
  induction fuel with
  | zero =>
    intro ts result result1 rest h
    simp [expressionListLoop] at h
  | succ fuel ih =>
    intro ts result result1 rest h
    have hE := (rules_account fuel).2.2.2.2.2.2.2.2.1
    simp only [expressionListLoop] at h
    split_ifs at h
    · simp only [bind_eq_ok_iff, Prod.exists, pure_eq_ok_iff, Prod.mk.injEq] at h
      obtain ⟨c1, ts1, h1, c2, ts2, h2, h3⟩ := h
      have a1 := mustBe_consumed h1
      have a2 := hE _ _ _ h2
      obtain ⟨added, hadd, a3⟩ := ih _ _ _ _ h3
      refine ⟨leafValuesOpt c1 ++ (c2.leafValues ++ added), ?_, a1.trans (a2.trans a3)⟩
      simp [hadd, addChild, leafValuesList_append, leafValuesList, leafValuesOpt]
    · simp only [Except.ok.injEq, Prod.mk.injEq] at h
      obtain ⟨rfl, rfl⟩ := h
      exact ⟨[], by simp, Consumed.refl _⟩

theorem compileExpressionList_spec (fuel : Nat) : TreeSpec (compileExpressionList fuel) := by
  intro ts tree rest h
  have hE := (rules_account fuel).2.2.2.2.2.2.2.2.1
  simp only [compileExpressionList] at h
  split_ifs at h
  · simp only [Except.ok.injEq, Prod.mk.injEq] at h
    obtain ⟨rfl, rfl⟩ := h
    exact Consumed.refl _
  · simp only [bind_eq_ok_iff, Prod.exists, pure_eq_ok_iff, Prod.mk.injEq] at h
    obtain ⟨c1, ts1, h1, r, ts2, h2, rfl, rfl⟩ := h
    have a1 := hE _ _ _ h1
    obtain ⟨added, hadd, a2⟩ := expressionListLoop_spec fuel _ _ _ _ h2
    have := a1.trans a2
    simpa [ParseTree.leafValues, hadd, addChild, leafValuesList, leafValuesOpt] using this

theorem suffix_of_weak {ts rest : List Token} {vals : List String}
    (h : Consumed ts rest vals ∨ (PendingSemicolon rest ∧ rest <:+ ts)) : rest <:+ ts :=
  h.elim Consumed.suffix And.right

/-! ## The round trip of the token values -/

/-- C5: whenever `compileClass` succeeds, the values of the token leaves of the tree it
returns, read left to right (a childless rule node and an absent term contribute nothing),
are exactly the values of the tokens it consumed from the input, in input order: none is
dropped, duplicated or reordered. No side condition on `compileReturn` is needed: its
empty-return branch leaves the `;` at the front, which makes the enclosing rule raise
ParseError, so that branch is never part of a run on which `compileClass` succeeds. -/
theorem compileClass_leaf_values_round_trip (fuel : Nat) (ts : List Token) (tree : ParseTree)
    (rest : List Token) (h : compileClass fuel ts = .ok (tree, rest)) :
    ∃ consumed, ts = consumed ++ rest ∧ tree.leafValues = consumed.map Token.value :=
  compileClass_spec fuel ts tree rest h

/-- The witness of C5: `class Main { function void f ( ) { return this } }` followed by one
more token, which is left. -/
theorem compileClass_leaf_values_round_trip_witness :
    ∃ consumed, [⟨"keyword", "class"⟩, ⟨"identifier", "Main"⟩, ⟨"symbol", "\x7b"⟩,
        ⟨"keyword", "function"⟩, ⟨"keyword", "void"⟩, ⟨"identifier", "f"⟩, ⟨"symbol", "("⟩,
        ⟨"symbol", ")"⟩, ⟨"symbol", "\x7b"⟩, ⟨"keyword", "return"⟩, ⟨"keyword", "this"⟩,
        ⟨"symbol", "\x7d"⟩, ⟨"symbol", "\x7d"⟩, ⟨"keyword", "class"⟩]
          = consumed ++ [⟨"keyword", "class"⟩] ∧
      (ParseTree.node "class" ""
        [some (.leaf ⟨"keyword", "class"⟩), some (.leaf ⟨"identifier", "Main"⟩),
         some (.leaf ⟨"symbol", "\x7b"⟩),
         some (.node "subroutine" ""
          [some (.leaf ⟨"keyword", "function"⟩), some (.leaf ⟨"keyword", "void"⟩),
           some (.leaf ⟨"identifier", "f"⟩), some (.leaf ⟨"symbol", "("⟩),
           some (.node "parameterList" "" []), some (.leaf ⟨"symbol", ")"⟩),
           some (.node "subroutineBody" ""
            [some (.leaf ⟨"symbol", "\x7b"⟩),
             some (.node "statements" ""
              [some (.node "returnStatement" ""
                [some (.leaf ⟨"keyword", "return"⟩),
                 some (.node "expression" ""
                  [some (.node "term" "" [some (.leaf ⟨"keyword", "this"⟩)])])])]),
             some (.leaf ⟨"symbol", "\x7d"⟩)])]),
         some (.leaf ⟨"symbol", "\x7d"⟩)]).leafValues = consumed.map Token.value :=
  compileClass_leaf_values_round_trip 5 _ _ _ rfl

/-! ## The cursor only moves forward -/

/-- C6: cursor monotonicity. Whenever one of the sixteen rule methods returns, the token
sequence it leaves is a suffix of the sequence it started with, for every starting sequence
and every fuel; and `next` on a non-empty sequence removes exactly the front element. -/
theorem cursor_moves_forward_only (fuel : Nat) (ts : List Token) :
    (∀ tree rest, compileProgram ts = .ok (tree, rest) → rest <:+ ts) ∧
    (∀ tree rest, compileClass fuel ts = .ok (tree, rest) → rest <:+ ts) ∧
    (∀ tree rest, compileClassVarDec ts = .ok (tree, rest) → rest <:+ ts) ∧
    (∀ tree rest, compileSubroutine fuel ts = .ok (tree, rest) → rest <:+ ts) ∧
    (∀ tree rest, compileParameterList ts = .ok (tree, rest) → rest <:+ ts) ∧
    (∀ tree rest, compileSubroutineBody fuel ts = .ok (tree, rest) → rest <:+ ts) ∧
    (∀ tree rest, compileVarDec ts = .ok (tree, rest) → rest <:+ ts) ∧
    (∀ tree rest, compileStatements fuel ts = .ok (tree, rest) → rest <:+ ts) ∧
    (∀ tree rest, compileLet fuel ts = .ok (tree, rest) → rest <:+ ts) ∧
    (∀ tree rest, compileIf fuel ts = .ok (tree, rest) → rest <:+ ts) ∧
    (∀ tree rest, compileWhile fuel ts = .ok (tree, rest) → rest <:+ ts) ∧
    (∀ tree rest, compileDo fuel ts = .ok (tree, rest) → rest <:+ ts) ∧
    (∀ tree rest, compileReturn fuel ts = .ok (tree, rest) → rest <:+ ts) ∧
    (∀ tree rest, compileExpression fuel ts = .ok (tree, rest) → rest <:+ ts) ∧
    (∀ term rest, compileTerm fuel ts = .ok (term, rest) → rest <:+ ts) ∧
    (∀ tree rest, compileExpressionList fuel ts = .ok (tree, rest) → rest <:+ ts) ∧
    (∀ t, next (t :: ts) = ts) := by
  obtain ⟨hS, -, -, hLet, hIf, hWhile, hDo, hRet, hE, -, hT⟩ := rules_account fuel
  exact ⟨fun _ _ h => (compileProgram_spec _ _ _ h).suffix,
    fun _ _ h => (compileClass_spec fuel _ _ _ h).suffix,
    fun _ _ h => (compileClassVarDec_spec _ _ _ h).suffix,
    fun _ _ h => (compileSubroutine_spec fuel _ _ _ h).suffix,
    fun _ _ h => (compileParameterList_spec _ _ _ h).suffix,
    fun _ _ h => (compileSubroutineBody_spec fuel _ _ _ h).suffix,
    fun _ _ h => (compileVarDec_spec _ _ _ h).suffix,
    fun _ _ h => suffix_of_weak (hS _ _ _ h),
    fun _ _ h => (hLet _ _ _ h).suffix,
    fun _ _ h => (hIf _ _ _ h).suffix,
    fun _ _ h => (hWhile _ _ _ h).suffix,
    fun _ _ h => (hDo _ _ _ h).suffix,
    fun _ _ h => suffix_of_weak (hRet _ _ _ h),
    fun _ _ h => (hE _ _ _ h).suffix,
    fun _ _ h => (hT _ _ _ h).suffix,
    fun _ _ h => (compileExpressionList_spec fuel _ _ _ h).suffix,
    fun _ => rfl⟩

/-- The witness of C6: `compileLet` on `let x = true ; return` returns and leaves `return`,
a suffix of its input. -/
theorem cursor_moves_forward_only_witness :
    compileLet 3 [⟨"keyword", "let"⟩, ⟨"identifier", "x"⟩, ⟨"symbol", "="⟩,
        ⟨"keyword", "true"⟩, ⟨"symbol", ";"⟩, ⟨"keyword", "return"⟩]
      = .ok (.node "letStatement" ""
          [some (.leaf ⟨"keyword", "let"⟩), some (.leaf ⟨"identifier", "x"⟩),
           some (.leaf ⟨"symbol", "="⟩),
           some (.node "expression" ""
            [some (.node "term" "" [some (.leaf ⟨"keyword", "true"⟩)])]),
           some (.leaf ⟨"symbol", ";"⟩)], [⟨"keyword", "return"⟩]) ∧
    [⟨"keyword", "return"⟩] <:+ [⟨"keyword", "let"⟩, ⟨"identifier", "x"⟩, ⟨"symbol", "="⟩,
        ⟨"keyword", "true"⟩, ⟨"symbol", ";"⟩, (⟨"keyword", "return"⟩ : Token)] :=
  ⟨rfl, (cursor_moves_forward_only 3 _).2.2.2.2.2.2.2.2.1 _ _ rfl⟩

/-! ## have and mustBe -/

/-- C11: `have(expectedType, expectedValue)` is true if and only if the token sequence is
non-empty, the type of its front token is `expectedType` and the value of its front token is
`expectedValue`. It is a total function into `Bool` that only reads the sequence, so it
raises nothing and leaves the sequence as it is. -/
theorem have_true_iff_front_matches (expectedType expectedValue : String)
    (tokensIn : List Token) :
    have_ expectedType expectedValue tokensIn = true ↔
      ∃ t rest, tokensIn = t :: rest ∧ t.type = expectedType ∧ t.value = expectedValue := by
  cases tokensIn with
  | nil => simp [have_nil]
  | cons t ts => simp [have_cons]

theorem mustBeWithState_agrees (ty v : String) (ts : List Token) :
    mustBe ty v ts =
      match mustBeWithState ty v ts with
      | (.ok c, rest) => .ok (c, rest)
      | (.error e, _) => .error e := by
  unfold mustBe mustBeWithState
  cases ts with
  | nil => simp [have_nil]
  | cons t ts => by_cases h : have_ ty v (t :: ts) = true <;> simp [h]

/-- C12: `mustBe(expectedType, expectedValue)` raises ParseError if and only if
`have(expectedType, expectedValue)` is false, and it raises nothing else; when `have` is
true it returns the front token as it is (same type, same value) and the sequence that is
left is the original one without its first element. -/
theorem mustBe_raises_iff_have_false (expectedType expectedValue : String)
    (tokensIn : List Token) :
    (mustBe expectedType expectedValue tokensIn = .error .parseError ↔
        have_ expectedType expectedValue tokensIn = false) ∧
    (∀ e, mustBe expectedType expectedValue tokensIn = .error e → e = .parseError) ∧
    (have_ expectedType expectedValue tokensIn = true →
        ∃ t rest, tokensIn = t :: rest ∧ t.type = expectedType ∧ t.value = expectedValue ∧
          mustBe expectedType expectedValue tokensIn = .ok (some (.leaf t), rest)) := by
  rcases mustBe_cases expectedType expectedValue tokensIn with h | ⟨rest, rfl, h⟩
  · have hf : have_ expectedType expectedValue tokensIn = false := by
      cases hh : have_ expectedType expectedValue tokensIn with
      | false => rfl
      | true =>
        obtain ⟨rest, rfl⟩ := (have_eq_true_iff _ _ _).1 hh
        rw [mustBe_cons_self] at h
        cases h
    refine ⟨⟨fun _ => hf, fun _ => h⟩, ?_, ?_⟩
    · intro e he
      rw [h] at he
      cases he
      rfl
    · intro ht
      rw [hf] at ht
      cases ht
  · have ht : have_ expectedType expectedValue (⟨expectedType, expectedValue⟩ :: rest) = true :=
      (have_eq_true_iff _ _ _).2 ⟨rest, rfl⟩
    refine ⟨⟨fun he => ?_, fun hf => ?_⟩, ?_, ?_⟩
    · rw [h] at he
      cases he
    · rw [ht] at hf
      cases hf
    · intro e he
      rw [h] at he
      cases he
    · intro _
      exact ⟨_, rest, rfl, rfl, rfl, h⟩

/-- The witness of C12: `mustBe("symbol", ";")` on `; x` returns the `;` and leaves `x`. -/
theorem mustBe_raises_iff_have_false_witness :
    ∃ t rest, [(⟨"symbol", ";"⟩ : Token), ⟨"identifier", "x"⟩] = t :: rest ∧
      t.type = "symbol" ∧ t.value = ";" ∧
      mustBe "symbol" ";" [⟨"symbol", ";"⟩, ⟨"identifier", "x"⟩] = .ok (some (.leaf t), rest) :=
  (mustBe_raises_iff_have_false "symbol" ";" [⟨"symbol", ";"⟩, ⟨"identifier", "x"⟩]).2.2
    (by decide)

/-- C13: a failed match never consumes. Whenever `mustBe(expectedType, expectedValue)`
raises ParseError, the token sequence after the call is the one before it; so
`mustBe("symbol", "}")` with the symbol `:` at the front raises ParseError and leaves the
`:` at the front. -/
theorem mustBe_failure_keeps_tokens (expectedType expectedValue : String)
    (tokensIn : List Token) :
    (mustBe expectedType expectedValue tokensIn = .error .parseError →
        mustBeWithState expectedType expectedValue tokensIn = (.error .parseError, tokensIn)) ∧
    (∀ rest, mustBeWithState "symbol" "\x7d" (⟨"symbol", ":"⟩ :: rest)
        = (.error .parseError, ⟨"symbol", ":"⟩ :: rest)) := by
  refine ⟨fun h => ?_, fun rest => rfl⟩
  rw [mustBeWithState_agrees] at h
  unfold mustBeWithState at h ⊢
  split_ifs at h ⊢ with hh
  · cases tokensIn with
    | nil => simp [have_nil] at hh
    | cons t ts => simp at h
  · rfl

/-- The witness of C13: `mustBe("symbol", "}")` on `: x`. -/
theorem mustBe_failure_keeps_tokens_witness :
    mustBe "symbol" "\x7d" [⟨"symbol", ":"⟩, ⟨"identifier", "x"⟩] = .error .parseError ∧
    mustBeWithState "symbol" "\x7d" [⟨"symbol", ":"⟩, ⟨"identifier", "x"⟩]
      = (.error .parseError, [⟨"symbol", ":"⟩, ⟨"identifier", "x"⟩]) :=
  ⟨rfl, (mustBe_failure_keeps_tokens "symbol" "\x7d" _).1 rfl⟩

/-! ## An empty return in a block -/

/-- C19: a block that ends with an empty return cannot be parsed. On every token sequence
that begins `{ return ;`, whatever follows, `compileSubroutineBody` raises ParseError once
the fuel covers the three nested calls: `compileReturn` leaves the `;` unconsumed and the
closing `mustBe("symbol", "}")` meets it. -/
theorem compileSubroutineBody_empty_return_parseError (fuel : Nat) (rest : List Token) :
    compileSubroutineBody (fuel + 3)
        (⟨"symbol", "\x7b"⟩ :: ⟨"keyword", "return"⟩ :: ⟨"symbol", ";"⟩ :: rest)
      = .error .parseError := rfl

/-! ## The return type of a subroutine -/

/-- C14, as stated, fails: in `function "void" f ( ) { }` the second token is the string
constant `void`, which is neither a keyword nor an identifier, and `compileSubroutine` does
not raise ParseError, whatever the fuel; with one unit of fuel it returns the subroutine. -/
theorem compileSubroutine_accepts_string_constant_void :
    (∀ fuel, compileSubroutine fuel [⟨"keyword", "function"⟩, ⟨"stringConstant", "void"⟩,
        ⟨"identifier", "f"⟩, ⟨"symbol", "("⟩, ⟨"symbol", ")"⟩, ⟨"symbol", "\x7b"⟩,
        ⟨"symbol", "\x7d"⟩] ≠ .error .parseError) ∧
    compileSubroutine 1 [⟨"keyword", "function"⟩, ⟨"stringConstant", "void"⟩,
        ⟨"identifier", "f"⟩, ⟨"symbol", "("⟩, ⟨"symbol", ")"⟩, ⟨"symbol", "\x7b"⟩,
        ⟨"symbol", "\x7d"⟩]
      = .ok (.node "subroutine" ""
          [some (.leaf ⟨"keyword", "function"⟩), some (.leaf ⟨"keyword", "void"⟩),
           some (.leaf ⟨"identifier", "f"⟩), some (.leaf ⟨"symbol", "("⟩),
           some (.node "parameterList" "" []), some (.leaf ⟨"symbol", ")"⟩),
           some (.node "subroutineBody" ""
            [some (.leaf ⟨"symbol", "\x7b"⟩), some (.node "statements" "" []),
             some (.leaf ⟨"symbol", "\x7d"⟩)])], []) := by
  refine ⟨fun fuel => ?_, rfl⟩
  cases fuel with
  | zero => exact fun h => nomatch h
  | succ fuel => exact fun h => nomatch h

/-- C14, amended: on every token sequence with at least two tokens, `compileSubroutine`
raises ParseError whenever the value of the second token is none of `void`, `int`, `char`,
`boolean` and its type is not identifier. -/
theorem compileSubroutine_bad_return_type_parseError (fuel : Nat) (a b : Token)
    (rest : List Token)
    (hvalue : b.value ≠ "void" ∧ b.value ≠ "int" ∧ b.value ≠ "char" ∧ b.value ≠ "boolean")
    (htype : b.type ≠ "identifier") :
    compileSubroutine fuel (a :: b :: rest) = .error .parseError := by
  obtain ⟨h1, h2, h3, h4⟩ := hvalue
  simp [compileSubroutine, newTokenOfCurrent, current, next, bind, Except.bind, h1, h2, h3, h4,
    htype]

/-- The witness of C14 amended: `function ( f`. -/
theorem compileSubroutine_bad_return_type_parseError_witness :
    compileSubroutine 5 [⟨"keyword", "function"⟩, ⟨"symbol", "("⟩, ⟨"identifier", "f"⟩]
      = .error .parseError :=
  compileSubroutine_bad_return_type_parseError 5 ⟨"keyword", "function"⟩ ⟨"symbol", "("⟩
    [⟨"identifier", "f"⟩] (by decide) (by decide)

/-! ## The children of a class node -/

theorem compileClassVarDec_label {ts rest : List Token} {tree : ParseTree}
    (h : compileClassVarDec ts = .ok (tree, rest)) :
    ∃ cs, tree = .node "classVarDec" "" cs := by
  simp only [compileClassVarDec, bind_eq_ok_iff, Prod.exists, pure_eq_ok_iff,
    Prod.mk.injEq] at h
  obtain ⟨c1, h1, c2, h2, r, ts3, h3, rfl, rfl⟩ := h
  exact ⟨_, rfl⟩

theorem compileSubroutine_label {fuel : Nat} {ts rest : List Token} {tree : ParseTree}
    (h : compileSubroutine fuel ts = .ok (tree, rest)) :
    ∃ cs, tree = .node "subroutine" "" cs := by
  simp only [compileSubroutine, bind_eq_ok_iff] at h
  obtain ⟨c1, h1, cur, -, h⟩ := h
  split_ifs at h
  · simp only [bind_eq_ok_iff, Prod.exists, pure_eq_ok_iff, Prod.mk.injEq] at h
    obtain ⟨c2, h2, r, ts2, ⟨rfl, rfl⟩, c3, h3, c4, ts4, h4, c5, ts5, h5, c6, ts6, h6,
      c7, ts7, h7, rfl, rfl⟩ := h
    exact ⟨_, rfl⟩
  · simp only [bind_eq_ok_iff, Prod.exists, pure_eq_ok_iff, Prod.mk.injEq] at h
    obtain ⟨c2, h2, r, ts2, ⟨rfl, rfl⟩, c3, h3, c4, ts4, h4, c5, ts5, h5, c6, ts6, h6,
      c7, ts7, h7, rfl, rfl⟩ := h
    exact ⟨_, rfl⟩
  · simp only [bind_eq_ok_iff, Prod.exists, pure_eq_ok_iff, Prod.mk.injEq] at h
    obtain ⟨c2, h2, r, ts2, ⟨rfl, rfl⟩, c3, h3, c4, ts4, h4, c5, ts5, h5, c6, ts6, h6,
      c7, ts7, h7, rfl, rfl⟩ := h
    exact ⟨_, rfl⟩
  · simp [bind, Except.bind] at h

/-- C15: whenever `compileClass` succeeds, the node it returns is labelled "class" and its
children are, in order: the leaves `class`, `Main`, `{`; the nodes `vd`, at most one, a node
labelled "classVarDec", there exactly when the token after `{` is the keyword static or
field; the nodes `sub`, at most one, a node labelled "subroutine", there exactly when the
token that comes next is the keyword constructor, function or method; and the leaf `}`. So
the node has between 4 and 6 children. -/
theorem compileClass_children_in_order (fuel : Nat) (ts : List Token) (tree : ParseTree)
    (rest : List Token) (h : compileClass fuel ts = .ok (tree, rest)) :
    ∃ ts3 ts4 vd sub,
      ts = ⟨"keyword", "class"⟩ :: ⟨"identifier", "Main"⟩ :: ⟨"symbol", "\x7b"⟩ :: ts3 ∧
      tree = .node "class" ""
        ([some (.leaf ⟨"keyword", "class"⟩), some (.leaf ⟨"identifier", "Main"⟩),
          some (.leaf ⟨"symbol", "\x7b"⟩)] ++ vd ++ sub ++ [some (.leaf ⟨"symbol", "\x7d"⟩)]) ∧
      ((have_ "keyword" "static" ts3 || have_ "keyword" "field" ts3) = true →
        ∃ cs, vd = [some (.node "classVarDec" "" cs)] ∧
          compileClassVarDec ts3 = .ok (.node "classVarDec" "" cs, ts4)) ∧
      ((have_ "keyword" "static" ts3 || have_ "keyword" "field" ts3) = false →
        vd = [] ∧ ts4 = ts3) ∧
      ((have_ "keyword" "constructor" ts4 || have_ "keyword" "function" ts4
          || have_ "keyword" "method" ts4) = true →
        ∃ cs, sub = [some (.node "subroutine" "" cs)] ∧
          compileSubroutine fuel ts4
            = .ok (.node "subroutine" "" cs, ⟨"symbol", "\x7d"⟩ :: rest)) ∧
      ((have_ "keyword" "constructor" ts4 || have_ "keyword" "function" ts4
          || have_ "keyword" "method" ts4) = false →
        sub = [] ∧ ts4 = ⟨"symbol", "\x7d"⟩ :: rest) ∧
      4 ≤ tree.children.length ∧ tree.children.length ≤ 6 := by
  simp only [compileClass, bind_eq_ok_iff, Prod.exists] at h
  obtain ⟨c1, ts1, h1, c2, ts2, h2, c3, ts3, h3, h⟩ := h
  obtain ⟨rfl, rfl⟩ := mustBe_eq_ok _ _ _ _ _ h1
  obtain ⟨rfl, rfl⟩ := mustBe_eq_ok _ _ _ _ _ h2
  obtain ⟨rfl, rfl⟩ := mustBe_eq_ok _ _ _ _ _ h3
  have key : ∀ (pre vd : Children) (ts4 : List Token), pre.length = 3 → vd.length ≤ 1 →
      (if (have_ "keyword" "constructor" ts4 || have_ "keyword" "function" ts4
            || have_ "keyword" "method" ts4) = true then do
          let d ← compileSubroutine fuel ts4
          let y ← (pure (addChild (pre ++ vd) (some d.1), d.2) :
            Except Err (Children × List Token))
          let d ← mustBe "symbol" "\x7d" y.2
          pure (ParseTree.node "class" "" (addChild y.1 d.1), d.2)
        else do
          let y ← (pure (pre ++ vd, ts4) : Except Err (Children × List Token))
          let d ← mustBe "symbol" "\x7d" y.2
          pure (ParseTree.node "class" "" (addChild y.1 d.1), d.2)) = .ok (tree, rest) →
      ∃ sub,
        tree = .node "class" ""
          (pre ++ vd ++ sub ++ [some (.leaf ⟨"symbol", "\x7d"⟩)]) ∧
        ((have_ "keyword" "constructor" ts4 || have_ "keyword" "function" ts4
            || have_ "keyword" "method" ts4) = true →
          ∃ cs, sub = [some (.node "subroutine" "" cs)] ∧
            compileSubroutine fuel ts4
              = .ok (.node "subroutine" "" cs, ⟨"symbol", "\x7d"⟩ :: rest)) ∧
        ((have_ "keyword" "constructor" ts4 || have_ "keyword" "function" ts4
            || have_ "keyword" "method" ts4) = false →
          sub = [] ∧ ts4 = ⟨"symbol", "\x7d"⟩ :: rest) ∧
        4 ≤ tree.children.length ∧ tree.children.length ≤ 6 := by
    intro pre vd ts4 hpre hvd h
    split_ifs at h with hc
    · simp only [bind_eq_ok_iff, Prod.exists, pure_eq_ok_iff, Prod.mk.injEq] at h
      obtain ⟨c5, ts5, h5, r, t, ⟨rfl, rfl⟩, c6, ts6, h6, rfl, rfl⟩ := h
      obtain ⟨rfl, rfl⟩ := mustBe_eq_ok _ _ _ _ _ h6
      obtain ⟨cs, rfl⟩ := compileSubroutine_label h5
      refine ⟨[some (.node "subroutine" "" cs)], by simp [addChild], fun _ => ⟨cs, rfl, h5⟩,
        fun hf => ?_, ?_, ?_⟩
      · rw [hc] at hf
        cases hf
      · simp only [ParseTree.children, addChild, List.length_append, List.length_cons,
          List.length_nil]
        omega
      · simp only [ParseTree.children, addChild, List.length_append, List.length_cons,
          List.length_nil]
        omega
    · simp only [bind_eq_ok_iff, Prod.exists, pure_eq_ok_iff, Prod.mk.injEq] at h
      obtain ⟨r, t, ⟨rfl, rfl⟩, c6, ts6, h6, rfl, rfl⟩ := h
      obtain ⟨rfl, rfl⟩ := mustBe_eq_ok _ _ _ _ _ h6
      refine ⟨[], by simp [addChild], fun ht => absurd ht hc, fun _ => ⟨rfl, rfl⟩, ?_, ?_⟩
      · simp only [ParseTree.children, addChild, List.length_append, List.length_cons,
          List.length_nil]
        omega
      · simp only [ParseTree.children, addChild, List.length_append, List.length_cons,
          List.length_nil]
        omega
  split_ifs at h with hc
  · simp only [bind_eq_ok_iff, Prod.exists, pure_eq_ok_iff, Prod.mk.injEq] at h
    obtain ⟨c4, ts4, h4, r, t, ⟨rfl, rfl⟩, h⟩ := h
    obtain ⟨cs, rfl⟩ := compileClassVarDec_label h4
    obtain ⟨sub, htree, hs1, hs2, hl1, hl2⟩ :=
      key ([some (ParseTree.leaf (Token.mk "keyword" "class")),
        some (ParseTree.leaf (Token.mk "identifier" "Main")),
        some (ParseTree.leaf (Token.mk "symbol" "\x7b"))] : Children)
        [some (.node "classVarDec" "" cs)] ts4 rfl (by simp) (by simpa [addChild] using h)
    refine ⟨_, ts4, _, sub, rfl, htree, fun _ => ⟨cs, rfl, h4⟩, fun hf => ?_, hs1, hs2, hl1, hl2⟩
    rw [hc] at hf
    cases hf
  · simp only [bind_eq_ok_iff, Prod.exists, pure_eq_ok_iff, Prod.mk.injEq] at h
    obtain ⟨r, t, ⟨rfl, rfl⟩, h⟩ := h
    obtain ⟨sub, htree, hs1, hs2, hl1, hl2⟩ :=
      key ([some (ParseTree.leaf (Token.mk "keyword" "class")),
        some (ParseTree.leaf (Token.mk "identifier" "Main")),
        some (ParseTree.leaf (Token.mk "symbol" "\x7b"))] : Children)
        [] _ rfl (by simp) (by simpa [addChild] using h)
    exact ⟨_, _, [], sub, rfl, htree, fun ht => absurd ht hc,
      fun _ => ⟨rfl, rfl⟩, hs1, hs2, hl1, hl2⟩

/-- The witness of C15: `class Main { static int x ; }` gives a class node with 5 children. -/
theorem compileClass_children_in_order_witness :
    compileClass 0 [⟨"keyword", "class"⟩, ⟨"identifier", "Main"⟩, ⟨"symbol", "\x7b"⟩,
        ⟨"keyword", "static"⟩, ⟨"keyword", "int"⟩, ⟨"identifier", "x"⟩, ⟨"symbol", ";"⟩,
        ⟨"symbol", "\x7d"⟩]
      = .ok (.node "class" ""
          [some (.leaf ⟨"keyword", "class"⟩), some (.leaf ⟨"identifier", "Main"⟩),
           some (.leaf ⟨"symbol", "\x7b"⟩),
           some (.node "classVarDec" ""
            [some (.leaf ⟨"keyword", "static"⟩), some (.leaf ⟨"keyword", "int"⟩),
             some (.leaf ⟨"identifier", "x"⟩), some (.leaf ⟨"symbol", ";"⟩)]),
           some (.leaf ⟨"symbol", "\x7d"⟩)], []) ∧
    ∃ vd sub : Children,
      [some (ParseTree.leaf ⟨"keyword", "class"⟩), some (.leaf ⟨"identifier", "Main"⟩),
           some (.leaf ⟨"symbol", "\x7b"⟩),
           some (.node "classVarDec" ""
            [some (.leaf ⟨"keyword", "static"⟩), some (.leaf ⟨"keyword", "int"⟩),
             some (.leaf ⟨"identifier", "x"⟩), some (.leaf ⟨"symbol", ";"⟩)]),
           some (.leaf ⟨"symbol", "\x7d"⟩)]
        = [some (.leaf ⟨"keyword", "class"⟩), some (.leaf ⟨"identifier", "Main"⟩),
           some (.leaf ⟨"symbol", "\x7b"⟩)] ++ vd ++ sub ++ [some (.leaf ⟨"symbol", "\x7d"⟩)] :=
  ⟨rfl, by
    obtain ⟨_, _, vd, sub, -, htree, -⟩ := compileClass_children_in_order 0
      [⟨"keyword", "class"⟩, ⟨"identifier", "Main"⟩, ⟨"symbol", "\x7b"⟩,
        ⟨"keyword", "static"⟩, ⟨"keyword", "int"⟩, ⟨"identifier", "x"⟩, ⟨"symbol", ";"⟩,
        ⟨"symbol", "\x7d"⟩] _ [] rfl
    exact ⟨vd, sub, by injection htree⟩⟩

/-! ## A second group of class variables -/

theorem compileClassVarDec_group (a b : Token) (ws rest : List Token)
    (h : ∀ w ∈ ws, w.type = "identifier" ∨ w = ⟨"symbol", ","⟩) :
    compileClassVarDec (a :: b :: (ws ++ ⟨"symbol", ";"⟩ :: rest))
      = .ok (.node "classVarDec" ""
          ([some (.leaf ⟨"keyword", a.value⟩), some (.leaf ⟨"keyword", b.value⟩)] ++
            (ws ++ [Token.mk "symbol" ";"]).map (fun t => some (.leaf t))), rest) := by
  have hloop := classVarDecLoop_names ws rest
    (addChild (addChild [] (some (.leaf ⟨"keyword", a.value⟩)))
      (some (.leaf ⟨"keyword", b.value⟩))) h
  simp only [compileClassVarDec, newTokenOfCurrent, current, next, bind, Except.bind, hloop]
  simp [addChild, pure, Except.pure]

/-- C20: a second class-variable group is rejected, not ignored. On `class Main { G t ...`
where `G` is a complete group (`static` or `field`, one more token, identifiers and commas,
then `;`) and the token `t` right after it is the keyword static or field, `compileClass`
raises ParseError, whatever the fuel. -/
theorem compileClass_second_group_parseError (fuel : Nat) (s b t : Token)
    (ws rest : List Token)
    (hs : s = ⟨"keyword", "static"⟩ ∨ s = ⟨"keyword", "field"⟩)
    (hws : ∀ w ∈ ws, w.type = "identifier" ∨ w = ⟨"symbol", ","⟩)
    (ht : t = ⟨"keyword", "static"⟩ ∨ t = ⟨"keyword", "field"⟩) :
    compileClass fuel (⟨"keyword", "class"⟩ :: ⟨"identifier", "Main"⟩ :: ⟨"symbol", "\x7b"⟩ ::
        s :: b :: (ws ++ ⟨"symbol", ";"⟩ :: t :: rest)) = .error .parseError := by
  have hvd := compileClassVarDec_group s b ws (t :: rest) hws
  have hhave : (have_ "keyword" "static" (s :: b :: (ws ++ ⟨"symbol", ";"⟩ :: t :: rest))
      || have_ "keyword" "field" (s :: b :: (ws ++ ⟨"symbol", ";"⟩ :: t :: rest))) = true := by
    rcases hs with rfl | rfl <;> simp [have_cons]
  have hsub : (have_ "keyword" "constructor" (t :: rest) || have_ "keyword" "function" (t :: rest)
      || have_ "keyword" "method" (t :: rest)) = false := by
    rcases ht with rfl | rfl <;> simp [have_cons]
  have hclose : mustBe "symbol" "\x7d" (t :: rest) = .error .parseError := by
    apply mustBe_of_have_false
    rcases ht with rfl | rfl <;> simp [have_cons]
  simp only [compileClass, mustBe_cons_self, bind, Except.bind, hhave, if_true, hvd, hsub,
    Bool.false_eq_true, if_false, pure, Except.pure, hclose]

/-- The witness of C20: `class Main { static int x ; field int y ; }`. -/
theorem compileClass_second_group_parseError_witness :
    compileClass 5 [⟨"keyword", "class"⟩, ⟨"identifier", "Main"⟩, ⟨"symbol", "\x7b"⟩,
        ⟨"keyword", "static"⟩, ⟨"keyword", "int"⟩, ⟨"identifier", "x"⟩, ⟨"symbol", ";"⟩,
        ⟨"keyword", "field"⟩, ⟨"keyword", "int"⟩, ⟨"identifier", "y"⟩, ⟨"symbol", ";"⟩,
        ⟨"symbol", "\x7d"⟩] = .error .parseError :=
  compileClass_second_group_parseError 5 ⟨"keyword", "static"⟩ ⟨"keyword", "int"⟩
    ⟨"keyword", "field"⟩ [⟨"identifier", "x"⟩]
    [⟨"keyword", "int"⟩, ⟨"identifier", "y"⟩, ⟨"symbol", ";"⟩, ⟨"symbol", "\x7d"⟩]
    (by decide) (by decide) (by decide)

/-! ## Expressions -/

/-- C18: the short-circuit branches of `compileExpression`. With symbol `(`, `-` or `~` at
the front, a run that succeeds returns an "expression" node with exactly one child, the
"term" node that `compileTerm` returns on the same sequence, and leaves what `compileTerm`
leaves: no operator after the term is consumed; on `- true + false` the `+` is left at the
front. With the keyword `skip` at the front the node has exactly one child, the keyword leaf
`skip`, and exactly that token is consumed. -/
theorem compileExpression_short_circuit (fuel : Nat) :
    (∀ s r tree rest, s = "(" ∨ s = "-" ∨ s = "~" →
      compileExpression (fuel + 1) (⟨"symbol", s⟩ :: r) = .ok (tree, rest) →
      ∃ cs, compileTerm fuel (⟨"symbol", s⟩ :: r) = .ok (some (.node "term" "" cs), rest) ∧
        tree = .node "expression" "" [some (.node "term" "" cs)]) ∧
    compileExpression (fuel + 3) [⟨"symbol", "-"⟩, ⟨"keyword", "true"⟩, ⟨"symbol", "+"⟩,
        ⟨"keyword", "false"⟩]
      = .ok (.node "expression" ""
          [some (.node "term" ""
            [some (.leaf ⟨"symbol", "-"⟩),
             some (.node "term" "" [some (.leaf ⟨"keyword", "true"⟩)])])],
          [⟨"symbol", "+"⟩, ⟨"keyword", "false"⟩]) ∧
    (∀ rest, compileExpression (fuel + 1) (⟨"keyword", "skip"⟩ :: rest)
      = .ok (.node "expression" "" [some (.leaf ⟨"keyword", "skip"⟩)], rest)) := by
  refine ⟨?_, rfl, fun _ => rfl⟩
  intro s r tree rest hs h
  have hbranch : (have_ "symbol" "(" (⟨"symbol", s⟩ :: r) || have_ "symbol" "-" (⟨"symbol", s⟩ :: r)
      || have_ "symbol" "~" (⟨"symbol", s⟩ :: r)) = true := by
    rcases hs with rfl | rfl | rfl <;> simp [have_cons]
  have hterm : ∀ c rest1, compileTerm fuel (⟨"symbol", s⟩ :: r) = .ok (c, rest1) →
      ∃ cs, c = some (.node "term" "" cs) := by
    intro c rest1 hc
    cases fuel with
    | zero => simp [compileTerm] at hc
    | succ fuel =>
      simp only [compileTerm] at hc
      split_ifs at hc with g1 g2 g3 g4 g5 g6
      · simp [have_cons] at g1
      · simp [have_cons] at g2
      · simp [have_cons] at g3
      · simp [have_cons] at g4
      · simp only [bind_eq_ok_iff, Prod.exists, pure_eq_ok_iff, Prod.mk.injEq] at hc
        obtain ⟨c1, ts1, -, c2, ts2, -, c3, ts3, -, rfl, -⟩ := hc
        exact ⟨_, rfl⟩
      · simp only [bind_eq_ok_iff, Prod.exists, pure_eq_ok_iff, Prod.mk.injEq] at hc
        obtain ⟨c1, -, c2, ts2, -, rfl, -⟩ := hc
        exact ⟨_, rfl⟩
      · exfalso
        rcases hs with rfl | rfl | rfl <;> simp [have_cons] at g5 g6
  simp only [compileExpression] at h
  rw [if_neg (by simp [have_cons]), if_neg (by simp [have_cons]), if_pos hbranch] at h
  simp only [bind_eq_ok_iff, Prod.exists, pure_eq_ok_iff, Prod.mk.injEq] at h
  obtain ⟨c, rest1, hc, rfl, rfl⟩ := h
  obtain ⟨cs, rfl⟩ := hterm c rest1 hc
  exact ⟨cs, hc, by simp [addChild]⟩

/-- The witness of C18: `( true ) + false`, where the `+` is left at the front. -/
theorem compileExpression_short_circuit_witness :
    ∃ cs, compileTerm 3 [⟨"symbol", "("⟩, ⟨"keyword", "true"⟩, ⟨"symbol", ")"⟩,
        ⟨"symbol", "+"⟩, ⟨"keyword", "false"⟩]
        = .ok (some (.node "term" "" cs), [⟨"symbol", "+"⟩, ⟨"keyword", "false"⟩]) ∧
      ParseTree.node "expression" ""
        [some (.node "term" ""
          [some (.leaf ⟨"symbol", "("⟩),
           some (.node "expression" ""
            [some (.node "term" "" [some (.leaf ⟨"keyword", "true"⟩)])]),
           some (.leaf ⟨"symbol", ")"⟩)])]
        = .node "expression" "" [some (.node "term" "" cs)] :=
  (compileExpression_short_circuit 3).1 "(" _ _ _ (Or.inl rfl) rfl

theorem compileTerm_keywordConstant (fuel : Nat) (k : Token) (r : List Token)
    (hk : k.type = "keyword" ∧ k.value ∈ ["true", "false", "null", "this"]) :
    compileTerm (fuel + 1) (k :: r) = .ok (some (.node "term" "" [some (.leaf k)]), r) := by
  obtain ⟨ty, v⟩ := k
  simp only [List.mem_cons, List.mem_singleton, List.not_mem_nil, or_false] at hk
  obtain ⟨rfl, rfl | rfl | rfl | rfl⟩ := hk <;> rfl

theorem expressionLoop_operator (fuel : Nat) (o : Token) (r : List Token) (result : Children)
    (ho : o.type = "symbol" ∧ o.value ∈ ["+", "-", "*", "/", "&", "|", "<", ">", "="]) :
    expressionLoop (fuel + 1) (o :: r) result
      = (compileTerm fuel r >>= fun p =>
          expressionLoop fuel p.2 (addChild (addChild result (some (.leaf o))) p.1)) := by
  obtain ⟨ty, v⟩ := o
  simp only [List.mem_cons, List.mem_singleton, List.not_mem_nil, or_false] at ho
  obtain ⟨rfl, rfl | rfl | rfl | rfl | rfl | rfl | rfl | rfl | rfl⟩ := ho <;> rfl

theorem expressionLoop_stop (fuel : Nat) (rest : List Token) (result : Children)
    (hrest : ∀ t r, rest = t :: r →
      ¬ (t.type = "symbol" ∧ t.value ∈ ["+", "-", "*", "/", "&", "|", "<", ">", "="])) :
    expressionLoop (fuel + 1) rest result = .ok (result, rest) := by
  cases rest with
  | nil => rfl
  | cons t r =>
    have ht := hrest t r rfl
    simp only [List.mem_cons, List.mem_singleton, List.not_mem_nil, or_false, not_and,
      not_or] at ht
    simp only [expressionLoop, have_cons]
    by_cases hs : t.type = "symbol"
    · obtain ⟨a1, a2, a3, a4, a5, a6, a7, a8, a9⟩ := ht hs
      simp [hs, a1, a2, a3, a4, a5, a6, a7, a8, a9]
    · simp [hs]

theorem expressionLoop_chain (fuel : Nat) (rest : List Token)
    (hrest : ∀ t r, rest = t :: r →
      ¬ (t.type = "symbol" ∧ t.value ∈ ["+", "-", "*", "/", "&", "|", "<", ">", "="])) :
    ∀ (pairs : List (Token × Token)) (result : Children),
      (∀ p ∈ pairs,
        (p.1.type = "symbol" ∧ p.1.value ∈ ["+", "-", "*", "/", "&", "|", "<", ">", "="]) ∧
        (p.2.type = "keyword" ∧ p.2.value ∈ ["true", "false", "null", "this"])) →
      expressionLoop (fuel + pairs.length + 1) ((pairs.flatMap fun p => [p.1, p.2]) ++ rest) result
        = .ok (result ++ pairs.flatMap (fun p =>
            [some (.leaf p.1), some (.node "term" "" [some (.leaf p.2)])]), rest) := by
  intro pairs
  induction pairs with
  | nil =>
    intro result _
    simpa using expressionLoop_stop fuel rest result hrest
  | cons p pairs ih =>
    intro result hp
    obtain ⟨ho, hk⟩ := hp p (List.mem_cons_self _ _)
    have ih2 := ih (addChild (addChild result (some (.leaf p.1)))
      (some (.node "term" "" [some (.leaf p.2)]))) (fun q hq => hp q (List.mem_cons_of_mem _ hq))
    have e1 : fuel + (p :: pairs).length + 1 = (fuel + pairs.length + 1) + 1 := by
      simp only [List.length_cons]; omega
    have e2 : fuel + pairs.length + 1 = (fuel + pairs.length) + 1 := rfl
    rw [e1, List.flatMap_cons, List.append_assoc]
    simp only [List.cons_append, List.nil_append]
    rw [expressionLoop_operator _ _ _ _ ho]
    conv_lhs => rw [e2, compileTerm_keywordConstant _ _ _ hk]
    simp only [bind, Except.bind]
    rw [ih2]
    simp [addChild]

/-- C17: on `k0 o1 k1 ... on kn`, keyword constants (true, false, null, this) separated by
operator symbols (`+ - * / & | < > =`), followed by the end of the input or by a token that
is not one of those operators, `compileExpression` returns the node labelled "expression"
with exactly `2n+1` children, the "term" node holding the leaf `ki` alternating with the
symbol leaf `oi` in input order, and it consumes exactly those `2n+1` tokens. The fuel
covers the `n` turns of the loop and the two nested calls. -/
theorem compileExpression_operator_chain (fuel : Nat) (k0 : Token)
    (pairs : List (Token × Token)) (rest : List Token)
    (hk0 : k0.type = "keyword" ∧ k0.value ∈ ["true", "false", "null", "this"])
    (hpairs : ∀ p ∈ pairs,
      (p.1.type = "symbol" ∧ p.1.value ∈ ["+", "-", "*", "/", "&", "|", "<", ">", "="]) ∧
      (p.2.type = "keyword" ∧ p.2.value ∈ ["true", "false", "null", "this"]))
    (hrest : ∀ t r, rest = t :: r →
      ¬ (t.type = "symbol" ∧ t.value ∈ ["+", "-", "*", "/", "&", "|", "<", ">", "="])) :
    ∃ cs, compileExpression (fuel + pairs.length + 2)
          (k0 :: ((pairs.flatMap fun p => [p.1, p.2]) ++ rest))
        = .ok (.node "expression" "" cs, rest) ∧
      cs = some (.node "term" "" [some (.leaf k0)]) ::
          pairs.flatMap (fun p => [some (.leaf p.1), some (.node "term" "" [some (.leaf p.2)])]) ∧
      cs.length = 2 * pairs.length + 1 := by
  refine ⟨_, ?_, rfl, ?_⟩
  · have hloop := expressionLoop_chain fuel rest hrest pairs
      (addChild [] (some (.node "term" "" [some (.leaf k0)]))) hpairs
    have hterm := compileTerm_keywordConstant (fuel + pairs.length) k0
      ((pairs.flatMap fun p => [p.1, p.2]) ++ rest) hk0
    obtain ⟨ty, v⟩ := k0
    simp only [List.mem_cons, List.mem_singleton, List.not_mem_nil, or_false] at hk0
    have e : fuel + pairs.length + 2 = (fuel + pairs.length + 1) + 1 := rfl
    rw [e]
    simp only [compileExpression]
    obtain ⟨rfl, hv⟩ := hk0
    have hv1 : v ≠ "skip" := by rcases hv with rfl | rfl | rfl | rfl <;> decide
    have hv2 : v ≠ "integerConstant" := by rcases hv with rfl | rfl | rfl | rfl <;> decide
    have hv3 : v ≠ "stringConstant" := by rcases hv with rfl | rfl | rfl | rfl <;> decide
    have hv4 : v ≠ "keyword" := by rcases hv with rfl | rfl | rfl | rfl <;> decide
    have hv5 : v ≠ "identifier" := by rcases hv with rfl | rfl | rfl | rfl <;> decide
    simp only [have_cons, hv1, hv2, hv3, hv4, hv5, and_false, decide_False, Bool.false_eq_true,
      if_false, Bool.or_self, and_true, hterm, hloop, bind, Except.bind, pure, Except.pure]
    simp [addChild]
  · have hlen : ∀ l : List (Token × Token),
        (l.flatMap fun p => [some (ParseTree.leaf p.1),
          some (ParseTree.node "term" "" [some (ParseTree.leaf p.2)])]).length = 2 * l.length := by
      intro l
      induction l with
      | nil => rfl
      | cons q l ih =>
        simp only [List.flatMap_cons, List.length_append, List.length_cons, List.length_nil, ih]
        omega
    simp only [List.length_cons, hlen]

/-- The witness of C17: `true + false = null` followed by `;`. -/
theorem compileExpression_operator_chain_witness :
    ∃ cs, compileExpression 4 [⟨"keyword", "true"⟩, ⟨"symbol", "+"⟩, ⟨"keyword", "false"⟩,
          ⟨"symbol", "="⟩, ⟨"keyword", "null"⟩, ⟨"symbol", ";"⟩]
        = .ok (.node "expression" "" cs, [⟨"symbol", ";"⟩]) ∧
      cs = [some (.node "term" "" [some (.leaf ⟨"keyword", "true"⟩)]),
            some (.leaf ⟨"symbol", "+"⟩),
            some (.node "term" "" [some (.leaf ⟨"keyword", "false"⟩)]),
            some (.leaf ⟨"symbol", "="⟩),
            some (.node "term" "" [some (.leaf ⟨"keyword", "null"⟩)])] ∧
      cs.length = 2 * 2 + 1 :=
  compileExpression_operator_chain 0 ⟨"keyword", "true"⟩
    [(⟨"symbol", "+"⟩, ⟨"keyword", "false"⟩), (⟨"symbol", "="⟩, ⟨"keyword", "null"⟩)]
    [⟨"symbol", ";"⟩] (by decide) (by decide) (fun t r h => by cases h; decide)

/-! ## Termination: enough fuel for every token sequence -/

theorem Consumed.length_le {ts rest : List Token} {v : List String}
    (h : Consumed ts rest v) : rest.length ≤ ts.length :=
  h.suffix.length_le

theorem next_length_le (ts : List Token) : (next ts).length ≤ ts.length := by
  cases ts <;> simp [next]

theorem mustBe_length {ty v : String} {ts rest : List Token} {c : Option ParseTree}
    (h : mustBe ty v ts = .ok (c, rest)) : rest.length + 1 = ts.length := by
  obtain ⟨rfl, -⟩ := mustBe_eq_ok ty v ts c rest h
  rfl

theorem newTokenOfCurrent_length {ty : String} {ts : List Token} {c : Option ParseTree}
    (h : newTokenOfCurrent ty ts = .ok c) : (next ts).length + 1 = ts.length := by
  cases ts with
  | nil => simp [newTokenOfCurrent, current] at h
  | cons t r => rfl

theorem FuelSuffices.ok {α : Type} (a : α) : FuelSuffices (Except.ok a : Except Err α) :=
  fun h => nomatch h

theorem FuelSuffices.pure {α : Type} (a : α) : FuelSuffices (Pure.pure a : Except Err α) :=
  fun h => nomatch h

theorem FuelSuffices.parseError {α : Type} :
    FuelSuffices (Except.error Err.parseError : Except Err α) :=
  fun h => nomatch h

theorem FuelSuffices.endOfInput {α : Type} :
    FuelSuffices (Except.error Err.endOfInput : Except Err α) :=
  fun h => nomatch h

theorem FuelSuffices.bind {α β : Type} {x : Except Err α} {f : α → Except Err β}
    (hx : FuelSuffices x) (hf : ∀ a, x = .ok a → FuelSuffices (f a)) :
    FuelSuffices (x >>= f) := by
  cases x with
  | error e => exact fun h => hx (by simpa [Bind.bind, Except.bind] using h)
  | ok a => exact hf a rfl

theorem FuelSuffices.mustBe (ty v : String) (ts : List Token) :
    FuelSuffices (mustBe ty v ts) := by
  rcases mustBe_cases ty v ts with h | ⟨r, -, h⟩ <;> rw [h]
  · exact FuelSuffices.parseError
  · exact FuelSuffices.ok _

theorem FuelSuffices.newTokenOfCurrent (ty : String) (ts : List Token) :
    FuelSuffices (newTokenOfCurrent ty ts) := by
  cases ts with
  | nil => exact FuelSuffices.endOfInput
  | cons t r => exact FuelSuffices.ok _

theorem FuelSuffices.bind_mustBe {β : Type} {ty v : String} {ts : List Token}
    {f : Option ParseTree × List Token → Except Err β}
    (hf : ∀ c rest, rest.length + 1 = ts.length → FuelSuffices (f (c, rest))) :
    FuelSuffices (CompilerParser.mustBe ty v ts >>= f) :=
  FuelSuffices.bind (FuelSuffices.mustBe ty v ts) (fun a h => hf a.1 a.2 (mustBe_length h))

theorem FuelSuffices.bind_newToken {β : Type} {ty : String} {ts : List Token}
    {f : Option ParseTree → Except Err β}
    (hf : ∀ c, (next ts).length + 1 = ts.length → FuelSuffices (f c)) :
    FuelSuffices (CompilerParser.newTokenOfCurrent ty ts >>= f) :=
  FuelSuffices.bind (FuelSuffices.newTokenOfCurrent ty ts)
    (fun a h => hf a (newTokenOfCurrent_length h))

theorem FuelSuffices.bind_le {α β : Type} (n : Nat) {x : Except Err (α × List Token)}
    {f : α × List Token → Except Err β} (hx : FuelSuffices x)
    (hle : ∀ a rest, x = .ok (a, rest) → rest.length ≤ n)
    (hf : ∀ a rest, rest.length ≤ n → FuelSuffices (f (a, rest))) :
    FuelSuffices (x >>= f) :=
  FuelSuffices.bind hx (fun a h => hf a.1 a.2 (hle a.1 a.2 h))

theorem compileDo_fuel (fuel : Nat) (h : RulesFuel fuel) :
    ∀ ts, 4 * ts.length < fuel + 1 → FuelSuffices (compileDo (fuel + 1) ts) := by
  obtain ⟨hS, hD, hSL, hLet, hIf, hWhile, hDo, hRet, hE, hEL, hT⟩ := h
  obtain ⟨sS, sD, sSL, sLet, sIf, sWhile, sDo, sRet, sE, sEL, sT⟩ := rules_account fuel
  intro ts hlen
  simp only [compileDo]
  refine FuelSuffices.bind_mustBe ?_
  intro c1 ts1 l1
  simp only []
  refine FuelSuffices.bind_le _ (hE _ (by omega)) (fun a r h => (sE _ _ _ h).length_le) ?_
  intro c2 ts2 l2
  simp only []
  refine FuelSuffices.bind_mustBe ?_
  intro c3 ts3 l3
  exact FuelSuffices.pure _

theorem compileLet_fuel (fuel : Nat) (h : RulesFuel fuel) :
    ∀ ts, 4 * ts.length < fuel + 1 → FuelSuffices (compileLet (fuel + 1) ts) := by
  obtain ⟨hS, hD, hSL, hLet, hIf, hWhile, hDo, hRet, hE, hEL, hT⟩ := h
  obtain ⟨sS, sD, sSL, sLet, sIf, sWhile, sDo, sRet, sE, sEL, sT⟩ := rules_account fuel
  intro ts hlen
  simp only [compileLet]
  repeat (first
    | exact FuelSuffices.pure _
    | (refine FuelSuffices.bind_mustBe ?_; intro _ _ _; try simp only [pure_bind])
    | (refine FuelSuffices.bind_newToken ?_; intro _ _; try simp only [pure_bind])
    | (refine FuelSuffices.bind_le _ (hE _ (by have := next_length_le; omega))
          (fun a r h => (sE _ _ _ h).length_le) ?_; intro _ _ _; try simp only [pure_bind])
    | split_ifs
    | simp only [pure_bind])

theorem compileIf_fuel (fuel : Nat) (h : RulesFuel fuel) :
    ∀ ts, 4 * ts.length < fuel + 1 → FuelSuffices (compileIf (fuel + 1) ts) := by
  obtain ⟨hS, hD, hSL, hLet, hIf, hWhile, hDo, hRet, hE, hEL, hT⟩ := h
  obtain ⟨sS, sD, sSL, sLet, sIf, sWhile, sDo, sRet, sE, sEL, sT⟩ := rules_account fuel
  intro ts hlen
  simp only [compileIf]
  repeat (first
    | exact FuelSuffices.pure _
    | (refine FuelSuffices.bind_mustBe ?_; intro _ _ _; try simp only [pure_bind])
    | (refine FuelSuffices.bind_le _ (hE _ (by omega))
          (fun a r h => (sE _ _ _ h).length_le) ?_; intro _ _ _; try simp only [pure_bind])
    | (refine FuelSuffices.bind_le _ (hS _ (by omega))
          (fun a r h => (suffix_of_weak (sS _ _ _ h)).length_le) ?_; intro _ _ _;
          try simp only [pure_bind])
    | split_ifs
    | simp only [pure_bind])

theorem compileLet_shrinks {fuel : Nat} {ts rest : List Token} {tree : ParseTree}
    (h : compileLet fuel ts = .ok (tree, rest)) : rest.length < ts.length := by
  cases fuel with
  | zero => simp [compileLet] at h
  | succ fuel =>
    have hE := (rules_account fuel).2.2.2.2.2.2.2.2.1
    simp only [compileLet, bind_eq_ok_iff, Prod.exists, pure_eq_ok_iff, Prod.mk.injEq] at h
    obtain ⟨c1, ts1, h1, c2, h2, h⟩ := h
    have l1 := mustBe_length h1
    have l2 := newTokenOfCurrent_length h2
    split at h
    · simp only [bind_eq_ok_iff, Prod.exists, pure_eq_ok_iff, Prod.mk.injEq] at h
      obtain ⟨c3, ts3, h3, c4, ts4, h4, c5, ts5, h5, r, ts6, ⟨rfl, rfl⟩, c7, ts7, h7,
        c8, ts8, h8, c9, ts9, h9, rfl, rfl⟩ := h
      have l3 := mustBe_length h3
      have l4 := (hE _ _ _ h4).length_le
      have l5 := mustBe_length h5
      have l7 := mustBe_length h7
      have l8 := (hE _ _ _ h8).length_le
      have l9 := mustBe_length h9
      omega
    · simp only [bind_eq_ok_iff, Prod.exists, pure_eq_ok_iff, Prod.mk.injEq] at h
      obtain ⟨r, ts6, ⟨rfl, rfl⟩, c7, ts7, h7, c8, ts8, h8, c9, ts9, h9, rfl, rfl⟩ := h
      have l7 := mustBe_length h7
      have l8 := (hE _ _ _ h8).length_le
      have l9 := mustBe_length h9
      omega

theorem compileIf_shrinks {fuel : Nat} {ts rest : List Token} {tree : ParseTree}
    (h : compileIf fuel ts = .ok (tree, rest)) : rest.length < ts.length := by
  cases fuel with
  | zero => simp [compileIf] at h
  | succ fuel =>
    have hE := (rules_account fuel).2.2.2.2.2.2.2.2.1
    have hS := (rules_account fuel).1
    simp only [compileIf, bind_eq_ok_iff, Prod.exists, pure_eq_ok_iff, Prod.mk.injEq] at h
    obtain ⟨c1, ts1, h1, c2, ts2, h2, c3, ts3, h3, c4, ts4, h4, c5, ts5, h5, c6, ts6, h6,
      c7, ts7, h7, h⟩ := h
    have l1 := mustBe_length h1
    have l2 := mustBe_length h2
    have l3 := (hE _ _ _ h3).length_le
    have l4 := mustBe_length h4
    have l5 := mustBe_length h5
    have l6 := (suffix_of_weak (hS _ _ _ h6)).length_le
    have l7 := mustBe_length h7
    split at h
    · simp only [bind_eq_ok_iff, Prod.exists, pure_eq_ok_iff, Prod.mk.injEq] at h
      obtain ⟨c8, ts8, h8, c9, ts9, h9, c10, ts10, h10, c11, ts11, h11, rfl, rfl⟩ := h
      have l8 := mustBe_length h8
      have l9 := mustBe_length h9
      have l10 := (suffix_of_weak (hS _ _ _ h10)).length_le
      have l11 := mustBe_length h11
      omega
    · simp only [pure_eq_ok_iff, Prod.mk.injEq] at h
      obtain ⟨rfl, rfl⟩ := h
      omega

theorem compileWhile_shrinks {fuel : Nat} {ts rest : List Token} {tree : ParseTree}
    (h : compileWhile fuel ts = .ok (tree, rest)) : rest.length < ts.length := by
  cases fuel with
  | zero => simp [compileWhile] at h
  | succ fuel =>
    have hE := (rules_account fuel).2.2.2.2.2.2.2.2.1
    have hS := (rules_account fuel).1
    simp only [compileWhile, bind_eq_ok_iff, Prod.exists, pure_eq_ok_iff, Prod.mk.injEq] at h
    obtain ⟨c1, ts1, h1, c2, ts2, h2, c3, ts3, h3, c4, ts4, h4, c5, ts5, h5, c6, ts6, h6,
      c7, ts7, h7, rfl, rfl⟩ := h
    have l1 := mustBe_length h1
    have l2 := mustBe_length h2
    have l3 := (hE _ _ _ h3).length_le
    have l4 := mustBe_length h4
    have l5 := mustBe_length h5
    have l6 := (suffix_of_weak (hS _ _ _ h6)).length_le
    have l7 := mustBe_length h7
    omega

theorem compileDo_shrinks {fuel : Nat} {ts rest : List Token} {tree : ParseTree}
    (h : compileDo fuel ts = .ok (tree, rest)) : rest.length < ts.length := by
  cases fuel with
  | zero => simp [compileDo] at h
  | succ fuel =>
    have hE := (rules_account fuel).2.2.2.2.2.2.2.2.1
    simp only [compileDo, bind_eq_ok_iff, Prod.exists, pure_eq_ok_iff, Prod.mk.injEq] at h
    obtain ⟨c1, ts1, h1, c2, ts2, h2, c3, ts3, h3, rfl, rfl⟩ := h
    have l1 := mustBe_length h1
    have l2 := (hE _ _ _ h2).length_le
    have l3 := mustBe_length h3
    omega

theorem compileReturn_shrinks {fuel : Nat} {ts rest : List Token} {tree : ParseTree}
    (h : compileReturn fuel ts = .ok (tree, rest)) : rest.length < ts.length := by
  cases fuel with
  | zero => simp [compileReturn] at h
  | succ fuel =>
    have hE := (rules_account fuel).2.2.2.2.2.2.2.2.1
    simp only [compileReturn, bind_eq_ok_iff, Prod.exists, pure_eq_ok_iff, Prod.mk.injEq] at h
    obtain ⟨c1, ts1, h1, h⟩ := h
    have l1 := mustBe_length h1
    split at h
    · simp only [bind_eq_ok_iff, Prod.exists, pure_eq_ok_iff, Prod.mk.injEq] at h
      obtain ⟨c2, ts2, h2, rfl, rfl⟩ := h
      have l2 := (hE _ _ _ h2).length_le
      omega
    · simp only [pure_eq_ok_iff, Prod.mk.injEq] at h
      obtain ⟨rfl, rfl⟩ := h
      omega

theorem compileStatement_shrinks {fuel : Nat} {ts rest : List Token} {result result1 : Children}
    (hg : (have_ "keyword" "let" ts || have_ "keyword" "if" ts || have_ "keyword" "while" ts
        || have_ "keyword" "do" ts || have_ "keyword" "return" ts) = true)
    (h : compileStatement fuel ts result = .ok (result1, rest)) : rest.length < ts.length := by
  cases fuel with
  | zero => simp [compileStatement] at h
  | succ fuel =>
    simp only [compileStatement] at h
    split_ifs at h with g1 g2 g3 g4 g5
    · simp only [bind_eq_ok_iff, Prod.exists, pure_eq_ok_iff, Prod.mk.injEq] at h
      obtain ⟨c1, ts1, h1, rfl, rfl⟩ := h
      exact compileLet_shrinks h1
    · simp only [bind_eq_ok_iff, Prod.exists, pure_eq_ok_iff, Prod.mk.injEq] at h
      obtain ⟨c1, ts1, h1, rfl, rfl⟩ := h
      exact compileIf_shrinks h1
    · simp only [bind_eq_ok_iff, Prod.exists, pure_eq_ok_iff, Prod.mk.injEq] at h
      obtain ⟨c1, ts1, h1, rfl, rfl⟩ := h
      exact compileWhile_shrinks h1
    · simp only [bind_eq_ok_iff, Prod.exists, pure_eq_ok_iff, Prod.mk.injEq] at h
      obtain ⟨c1, ts1, h1, rfl, rfl⟩ := h
      exact compileDo_shrinks h1
    · simp only [bind_eq_ok_iff, Prod.exists, pure_eq_ok_iff, Prod.mk.injEq] at h
      obtain ⟨c1, ts1, h1, rfl, rfl⟩ := h
      exact compileReturn_shrinks h1
    · simp [g1, g2, g3, g4, g5] at hg

theorem compileWhile_fuel (fuel : Nat) (h : RulesFuel fuel) :
    ∀ ts, 4 * ts.length < fuel + 1 → FuelSuffices (compileWhile (fuel + 1) ts) := by
  obtain ⟨hS, hD, hSL, hLet, hIf, hWhile, hDo, hRet, hE, hEL, hT⟩ := h
  obtain ⟨sS, sD, sSL, sLet, sIf, sWhile, sDo, sRet, sE, sEL, sT⟩ := rules_account fuel
  intro ts hlen
  simp only [compileWhile]
  repeat (first
    | exact FuelSuffices.pure _
    | (refine FuelSuffices.bind_mustBe ?_; intro _ _ _; try simp only [pure_bind])
    | (refine FuelSuffices.bind_le _ (hE _ (by omega))
          (fun a r h => (sE _ _ _ h).length_le) ?_; intro _ _ _; try simp only [pure_bind])
    | (refine FuelSuffices.bind_le _ (hS _ (by omega))
          (fun a r h => (suffix_of_weak (sS _ _ _ h)).length_le) ?_; intro _ _ _;
          try simp only [pure_bind]))

theorem compileReturn_fuel (fuel : Nat) (h : RulesFuel fuel) :
    ∀ ts, 4 * ts.length < fuel + 1 → FuelSuffices (compileReturn (fuel + 1) ts) := by
  obtain ⟨hS, hD, hSL, hLet, hIf, hWhile, hDo, hRet, hE, hEL, hT⟩ := h
  obtain ⟨sS, sD, sSL, sLet, sIf, sWhile, sDo, sRet, sE, sEL, sT⟩ := rules_account fuel
  intro ts hlen
  simp only [compileReturn]
  repeat (first
    | exact FuelSuffices.pure _
    | (refine FuelSuffices.bind_mustBe ?_; intro _ _ _; try simp only [pure_bind])
    | (refine FuelSuffices.bind_le _ (hE _ (by omega))
          (fun a r h => (sE _ _ _ h).length_le) ?_; intro _ _ _; try simp only [pure_bind])
    | split_ifs)

theorem compileTerm_fuel (fuel : Nat) (h : RulesFuel fuel) :
    ∀ ts, 4 * ts.length < fuel + 1 → FuelSuffices (compileTerm (fuel + 1) ts) := by
  obtain ⟨hS, hD, hSL, hLet, hIf, hWhile, hDo, hRet, hE, hEL, hT⟩ := h
  obtain ⟨sS, sD, sSL, sLet, sIf, sWhile, sDo, sRet, sE, sEL, sT⟩ := rules_account fuel
  intro ts hlen
  simp only [compileTerm]
  repeat (first
    | exact FuelSuffices.pure _
    | exact FuelSuffices.ok _
    | (refine FuelSuffices.bind_mustBe ?_; intro _ _ _; try simp only [pure_bind])
    | (refine FuelSuffices.bind_newToken ?_; intro _ _; try simp only [pure_bind])
    | (refine FuelSuffices.bind_le _ (hE _ (by omega))
          (fun a r h => (sE _ _ _ h).length_le) ?_; intro _ _ _; try simp only [pure_bind])
    | (refine FuelSuffices.bind_le _ (hT _ (by omega))
          (fun a r h => (sT _ _ _ h).length_le) ?_; intro _ _ _; try simp only [pure_bind])
    | split_ifs)

theorem expressionLoop_fuel (fuel : Nat) (h : RulesFuel fuel) :
    ∀ ts r, 4 * ts.length < fuel + 1 → FuelSuffices (expressionLoop (fuel + 1) ts r) := by
  obtain ⟨hS, hD, hSL, hLet, hIf, hWhile, hDo, hRet, hE, hEL, hT⟩ := h
  obtain ⟨sS, sD, sSL, sLet, sIf, sWhile, sDo, sRet, sE, sEL, sT⟩ := rules_account fuel
  intro ts r hlen
  simp only [expressionLoop]
  repeat (first
    | exact FuelSuffices.ok _
    | exact hEL _ _ (by omega)
    | (refine FuelSuffices.bind_newToken ?_; intro _ _; try simp only [pure_bind])
    | (refine FuelSuffices.bind_le _ (hT _ (by omega))
          (fun a r h => (sT _ _ _ h).length_le) ?_; intro _ _ _; try simp only [pure_bind])
    | split_ifs)

theorem compileExpression_fuel (fuel : Nat) (h : RulesFuel fuel) :
    ∀ ts, 4 * ts.length + 1 < fuel + 1 → FuelSuffices (compileExpression (fuel + 1) ts) := by
  obtain ⟨hS, hD, hSL, hLet, hIf, hWhile, hDo, hRet, hE, hEL, hT⟩ := h
  obtain ⟨sS, sD, sSL, sLet, sIf, sWhile, sDo, sRet, sE, sEL, sT⟩ := rules_account fuel
  intro ts hlen
  simp only [compileExpression]
  repeat (first
    | exact FuelSuffices.pure _
    | exact FuelSuffices.ok _
    | (refine FuelSuffices.bind_newToken ?_; intro _ _; try simp only [pure_bind])
    | (refine FuelSuffices.bind_le _ (hT _ (by omega))
          (fun a r h => (sT _ _ _ h).length_le) ?_; intro _ _ _; try simp only [pure_bind])
    | (refine FuelSuffices.bind_le _ (hEL _ _ (by omega))
          (fun a r h => (sEL _ _ _ _ h).elim (fun _ hc => hc.2.length_le)) ?_; intro _ _ _;
          try simp only [pure_bind])
    | split_ifs)

theorem compileStatement_fuel (fuel : Nat) (h : RulesFuel fuel) :
    ∀ ts r, 4 * ts.length + 1 < fuel + 1 → FuelSuffices (compileStatement (fuel + 1) ts r) := by
  obtain ⟨hS, hD, hSL, hLet, hIf, hWhile, hDo, hRet, hE, hEL, hT⟩ := h
  intro ts r hlen
  simp only [compileStatement]
  repeat (first
    | exact FuelSuffices.pure _
    | exact FuelSuffices.ok _
    | (refine FuelSuffices.bind (hLet _ (by omega)) ?_; intro _ _; try simp only [pure_bind])
    | (refine FuelSuffices.bind (hIf _ (by omega)) ?_; intro _ _; try simp only [pure_bind])
    | (refine FuelSuffices.bind (hWhile _ (by omega)) ?_; intro _ _; try simp only [pure_bind])
    | (refine FuelSuffices.bind (hDo _ (by omega)) ?_; intro _ _; try simp only [pure_bind])
    | (refine FuelSuffices.bind (hRet _ (by omega)) ?_; intro _ _; try simp only [pure_bind])
    | split_ifs)

theorem statementsLoop_fuel (fuel : Nat) (h : RulesFuel fuel) :
    ∀ ts r, 4 * ts.length + 2 < fuel + 1 → FuelSuffices (statementsLoop (fuel + 1) ts r) := by
  obtain ⟨hS, hD, hSL, hLet, hIf, hWhile, hDo, hRet, hE, hEL, hT⟩ := h
  intro ts r hlen
  simp only [statementsLoop]
  split_ifs with hg
  · refine FuelSuffices.bind (hD _ _ (by omega)) ?_
    intro a ha
    have hlt := compileStatement_shrinks hg ha
    exact hSL _ _ (by omega)
  · exact FuelSuffices.ok _

theorem compileStatements_fuel (fuel : Nat) (h : RulesFuel fuel) :
    ∀ ts, 4 * ts.length + 3 < fuel + 1 → FuelSuffices (compileStatements (fuel + 1) ts) := by
  obtain ⟨hS, hD, hSL, hLet, hIf, hWhile, hDo, hRet, hE, hEL, hT⟩ := h
  obtain ⟨sS, sD, sSL, sLet, sIf, sWhile, sDo, sRet, sE, sEL, sT⟩ := rules_account fuel
  intro ts hlen
  simp only [compileStatements]
  split_ifs with hg
  · exact FuelSuffices.ok _
  · refine FuelSuffices.bind_le ts.length (hD _ _ (by omega))
      (fun a r h => (sD _ _ _ _ h).elim (fun hc => hc.elim (fun _ hc => hc.2.length_le))
        (fun hp => hp.2.length_le)) ?_
    intro r1 ts1 l1
    simp only []
    refine FuelSuffices.bind (hSL _ _ (by omega)) ?_
    intro a _
    exact FuelSuffices.pure _

/-- With four units of fuel for each token and up to three more, no method of the mutually
recursive group runs out of fuel. -/
theorem rules_fuel (fuel : Nat) : RulesFuel fuel := by
  induction fuel with
  | zero =>
    refine ⟨?_, ?_, ?_, ?_, ?_, ?_, ?_, ?_, ?_, ?_, ?_⟩ <;> intros <;> omega
  | succ fuel ih =>
    exact ⟨compileStatements_fuel fuel ih, compileStatement_fuel fuel ih,
      statementsLoop_fuel fuel ih, compileLet_fuel fuel ih, compileIf_fuel fuel ih,
      compileWhile_fuel fuel ih, compileDo_fuel fuel ih, compileReturn_fuel fuel ih,
      compileExpression_fuel fuel ih, expressionLoop_fuel fuel ih, compileTerm_fuel fuel ih⟩

theorem FuelSuffices.current (ts : List Token) : FuelSuffices (current ts) := by
  cases ts with
  | nil => exact FuelSuffices.endOfInput
  | cons t r => exact FuelSuffices.ok _

theorem compileProgram_fuel (ts : List Token) : FuelSuffices (compileProgram ts) := by
  simp only [compileProgram]
  repeat (first
    | exact FuelSuffices.pure _
    | (refine FuelSuffices.bind_mustBe ?_; intro _ _ _; try simp only [pure_bind]))

theorem classVarDecLoop_fuel : ∀ (ts : List Token) (r : Children),
    FuelSuffices (classVarDecLoop ts r)
  | [], _ => FuelSuffices.endOfInput
  | t :: ts, r => by
    simp only [classVarDecLoop]
    split_ifs
    · exact classVarDecLoop_fuel ts _
    · exact classVarDecLoop_fuel ts _
    · exact FuelSuffices.ok _
    · exact FuelSuffices.parseError

theorem compileClassVarDec_fuel (ts : List Token) : FuelSuffices (compileClassVarDec ts) := by
  simp only [compileClassVarDec]
  refine FuelSuffices.bind_newToken ?_
  intro _ _
  refine FuelSuffices.bind_newToken ?_
  intro _ _
  refine FuelSuffices.bind (classVarDecLoop_fuel _ _) ?_
  intro _ _
  exact FuelSuffices.pure _

theorem parameterListLoop_fuel_aux (n : Nat) :
    ∀ (ts : List Token) (r : Children), ts.length ≤ n →
      FuelSuffices (parameterListLoop ts r) := by
  induction n with
  | zero =>
    intro ts r hlen
    obtain rfl : ts = [] := List.eq_nil_of_length_eq_zero (Nat.le_zero.1 hlen)
    rw [parameterListLoop.eq_def]
    simp only [have_nil, Bool.false_eq_true, if_false]
    exact FuelSuffices.ok _
  | succ n ih =>
    intro ts r hlen
    rw [parameterListLoop.eq_def]
    split_ifs
    · split
      · rename_i comma ty name ts1 hc
        exact ih ts1 _ (by simp only [List.length_cons] at hlen; omega)
      · exact FuelSuffices.endOfInput
    · exact FuelSuffices.ok _

theorem compileParameterList_fuel (ts : List Token) :
    FuelSuffices (compileParameterList ts) := by
  simp only [compileParameterList]
  split_ifs
  · exact FuelSuffices.ok _
  · refine FuelSuffices.bind_newToken ?_
    intro _ _
    refine FuelSuffices.bind_newToken ?_
    intro _ _
    refine FuelSuffices.bind (parameterListLoop_fuel_aux _ _ _ (Nat.le_refl _)) ?_
    intro _ _
    exact FuelSuffices.pure _

theorem varDecLoop_fuel_aux (n : Nat) :
    ∀ (ts : List Token) (r : Children), ts.length ≤ n → FuelSuffices (varDecLoop ts r) := by
  induction n with
  | zero =>
    intro ts r hlen
    obtain rfl : ts = [] := List.eq_nil_of_length_eq_zero (Nat.le_zero.1 hlen)
    rw [varDecLoop.eq_def]
    simp only [have_nil, Bool.false_eq_true, if_false]
    exact FuelSuffices.ok _
  | succ n ih =>
    intro ts r hlen
    rw [varDecLoop.eq_def]
    split_ifs
    · split
      · rename_i comma name ts1 hc
        exact ih ts1 _ (by simp only [List.length_cons] at hlen; omega)
      · exact FuelSuffices.endOfInput
    · exact FuelSuffices.ok _

theorem compileVarDec_fuel (ts : List Token) : FuelSuffices (compileVarDec ts) := by
  simp only [compileVarDec]
  refine FuelSuffices.bind_mustBe ?_
  intro _ _ _
  refine FuelSuffices.bind_newToken ?_
  intro _ _
  refine FuelSuffices.bind_newToken ?_
  intro _ _
  refine FuelSuffices.bind (varDecLoop_fuel_aux _ _ _ (Nat.le_refl _)) ?_
  intro _ _
  refine FuelSuffices.bind_mustBe ?_
  intro _ _ _
  exact FuelSuffices.pure _

theorem expressionListLoop_fuel (fuel : Nat) :
    ∀ ts r, 4 * ts.length < fuel → FuelSuffices (expressionListLoop fuel ts r) := by
  induction fuel with
  | zero => intro ts r h; omega
  | succ fuel ih =>
    intro ts r hlen
    have hE := (rules_fuel fuel).2.2.2.2.2.2.2.2.1
    have sE := (rules_account fuel).2.2.2.2.2.2.2.2.1
    simp only [expressionListLoop]
    split_ifs
    · refine FuelSuffices.bind_mustBe ?_
      intro c1 ts1 l1
      simp only []
      refine FuelSuffices.bind_le _ (hE _ (by omega)) (fun a r h => (sE _ _ _ h).length_le) ?_
      intro c2 ts2 l2
      simp only []
      exact ih _ _ (by omega)
    · exact FuelSuffices.ok _

theorem compileExpressionList_fuel (fuel : Nat) (ts : List Token)
    (hlen : 4 * ts.length + 1 < fuel) : FuelSuffices (compileExpressionList fuel ts) := by
  have hE := (rules_fuel fuel).2.2.2.2.2.2.2.2.1
  have sE := (rules_account fuel).2.2.2.2.2.2.2.2.1
  simp only [compileExpressionList]
  split_ifs
  · exact FuelSuffices.ok _
  · refine FuelSuffices.bind_le _ (hE _ hlen) (fun a r h => (sE _ _ _ h).length_le) ?_
    intro c1 ts1 l1
    simp only []
    refine FuelSuffices.bind (expressionListLoop_fuel fuel _ _ (by omega)) ?_
    intro _ _
    exact FuelSuffices.pure _

theorem compileSubroutineBody_fuel (fuel : Nat) (ts : List Token)
    (hlen : 4 * ts.length + 3 < fuel) : FuelSuffices (compileSubroutineBody fuel ts) := by
  have hS := (rules_fuel fuel).1
  simp only [compileSubroutineBody]
  refine FuelSuffices.bind_mustBe ?_
  intro c1 ts1 l1
  simp only []
  split_ifs
  · refine FuelSuffices.bind_le _ (compileVarDec_fuel _)
      (fun a r h => (compileVarDec_spec _ _ _ h).length_le) ?_
    intro c2 ts2 l2
    simp only [pure_bind]
    refine FuelSuffices.bind (hS _ (by omega)) ?_
    intro _ _
    refine FuelSuffices.bind_mustBe ?_
    intro _ _ _
    exact FuelSuffices.pure _
  · simp only [pure_bind]
    refine FuelSuffices.bind (hS _ (by omega)) ?_
    intro _ _
    refine FuelSuffices.bind_mustBe ?_
    intro _ _ _
    exact FuelSuffices.pure _

theorem compileSubroutine_fuel (fuel : Nat) (ts : List Token)
    (hlen : 4 * ts.length + 3 < fuel) : FuelSuffices (compileSubroutine fuel ts) := by
  simp only [compileSubroutine]
  refine FuelSuffices.bind_newToken ?_
  intro c1 l1
  refine FuelSuffices.bind (FuelSuffices.current _) ?_
  intro cur _
  have key : ∀ (r : Children) (ts2 : List Token), ts2.length ≤ ts.length →
      FuelSuffices (do
        let c ← newTokenOfCurrent "identifier" ts2
        let d ← mustBe "symbol" "(" (next ts2)
        let d1 ← compileParameterList d.2
        let d2 ← mustBe "symbol" ")" d1.2
        let d3 ← compileSubroutineBody fuel d2.2
        (Pure.pure (ParseTree.node "subroutine" ""
          (addChild (addChild (addChild (addChild (addChild r c) d.1) (some d1.1)) d2.1)
            (some d3.1)), d3.2) : Except Err (ParseTree × List Token))) := by
    intro r ts2 l2
    refine FuelSuffices.bind_newToken ?_
    intro c3 l3
    refine FuelSuffices.bind_mustBe ?_
    intro c4 ts4 l4
    simp only []
    refine FuelSuffices.bind_le _ (compileParameterList_fuel _)
      (fun a r h => (compileParameterList_spec _ _ _ h).length_le) ?_
    intro c5 ts5 l5
    simp only []
    refine FuelSuffices.bind_mustBe ?_
    intro c6 ts6 l6
    simp only []
    refine FuelSuffices.bind (compileSubroutineBody_fuel fuel _ (by omega)) ?_
    intro _ _
    exact FuelSuffices.pure _
  have hn := next_length_le ts
  have hnn := next_length_le (next ts)
  split_ifs
  · refine FuelSuffices.bind_newToken ?_
    intro c2 l2
    simp only [pure_bind]
    exact key _ _ (by omega)
  · refine FuelSuffices.bind_newToken ?_
    intro c2 l2
    simp only [pure_bind]
    exact key _ _ (by omega)
  · refine FuelSuffices.bind_newToken ?_
    intro c2 l2
    simp only [pure_bind]
    exact key _ _ (by omega)
  · exact fun h => nomatch h

theorem compileClass_fuel (fuel : Nat) (ts : List Token)
    (hlen : 4 * ts.length + 3 < fuel) : FuelSuffices (compileClass fuel ts) := by
  simp only [compileClass]
  refine FuelSuffices.bind_mustBe ?_
  intro c1 ts1 l1
  simp only []
  refine FuelSuffices.bind_mustBe ?_
  intro c2 ts2 l2
  simp only []
  refine FuelSuffices.bind_mustBe ?_
  intro c3 ts3 l3
  simp only []
  have key : ∀ (r : Children) (ts4 : List Token), ts4.length ≤ ts.length →
      FuelSuffices (
        if (have_ "keyword" "constructor" ts4 || have_ "keyword" "function" ts4
            || have_ "keyword" "method" ts4) = true then do
          let d ← compileSubroutine fuel ts4
          let y ← (Pure.pure (addChild r (some d.1), d.2) : Except Err (Children × List Token))
          let d ← mustBe "symbol" "\x7d" y.2
          (Pure.pure (ParseTree.node "class" "" (addChild y.1 d.1), d.2) :
            Except Err (ParseTree × List Token))
        else do
          let y ← (Pure.pure (r, ts4) : Except Err (Children × List Token))
          let d ← mustBe "symbol" "\x7d" y.2
          (Pure.pure (ParseTree.node "class" "" (addChild y.1 d.1), d.2) :
            Except Err (ParseTree × List Token))) := by
    intro r ts4 l4
    split_ifs
    · refine FuelSuffices.bind (compileSubroutine_fuel fuel _ (by omega)) ?_
      intro _ _
      simp only [pure_bind]
      refine FuelSuffices.bind_mustBe ?_
      intro _ _ _
      exact FuelSuffices.pure _
    · simp only [pure_bind]
      refine FuelSuffices.bind_mustBe ?_
      intro _ _ _
      exact FuelSuffices.pure _
  split_ifs
  · refine FuelSuffices.bind_le _ (compileClassVarDec_fuel _)
      (fun a r h => (compileClassVarDec_spec _ _ _ h).length_le) ?_
    intro c4 ts4 l4
    simp only [pure_bind]
    exact key _ _ (by omega)
  · simp only [pure_bind]
    exact key _ _ (by omega)

/-! ## More fuel does not change a result -/

theorem fuelLe_refl {α : Type} (r : Except Err α) : FuelLe r r := Or.inr rfl

theorem fuelLe_bind {α β : Type} {x x1 : Except Err α} {f f1 : α → Except Err β}
    (hx : FuelLe x x1) (hf : ∀ a, FuelLe (f a) (f1 a)) : FuelLe (x >>= f) (x1 >>= f1) := by
  rcases hx with rfl | rfl
  · exact Or.inl rfl
  · cases x with
    | error e => exact Or.inr rfl
    | ok a => exact hf a

theorem compileDo_mono (fuel : Nat) (h : RulesMono fuel) :
    ∀ ts, FuelLe (compileDo (fuel + 1) ts) (compileDo (fuel + 1 + 1) ts) := by
  obtain ⟨hS, hD, hSL, hLet, hIf, hWhile, hDo, hRet, hE, hEL, hT⟩ := h
  intro ts
  simp only [compileDo]
  repeat (first | exact fuelLe_refl _ | exact hE _ | apply fuelLe_bind | intro _ | split_ifs)

theorem compileTerm_mono (fuel : Nat) (h : RulesMono fuel) :
    ∀ ts, FuelLe (compileTerm (fuel + 1) ts) (compileTerm (fuel + 1 + 1) ts) := by
  obtain ⟨hS, hD, hSL, hLet, hIf, hWhile, hDo, hRet, hE, hEL, hT⟩ := h
  intro ts
  unfold compileTerm
  simp only []
  repeat (first | exact fuelLe_refl _ | exact hE _ | exact hT _ | apply fuelLe_bind | intro _
                | split_ifs)

theorem compileLet_mono (fuel : Nat) (h : RulesMono fuel) :
    ∀ ts, FuelLe (compileLet (fuel + 1) ts) (compileLet (fuel + 1 + 1) ts) := by
  obtain ⟨hS, hD, hSL, hLet, hIf, hWhile, hDo, hRet, hE, hEL, hT⟩ := h
  intro ts
  simp only [compileLet]
  repeat (first | exact fuelLe_refl _ | exact hE _
                | apply fuelLe_bind | intro _ | split_ifs)

theorem compileIf_mono (fuel : Nat) (h : RulesMono fuel) :
    ∀ ts, FuelLe (compileIf (fuel + 1) ts) (compileIf (fuel + 1 + 1) ts) := by
  obtain ⟨hS, hD, hSL, hLet, hIf, hWhile, hDo, hRet, hE, hEL, hT⟩ := h
  intro ts
  simp only [compileIf]
  repeat (first | exact fuelLe_refl _ | exact hE _ | exact hS _
                | apply fuelLe_bind | intro _ | split_ifs)

theorem compileWhile_mono (fuel : Nat) (h : RulesMono fuel) :
    ∀ ts, FuelLe (compileWhile (fuel + 1) ts) (compileWhile (fuel + 1 + 1) ts) := by
  obtain ⟨hS, hD, hSL, hLet, hIf, hWhile, hDo, hRet, hE, hEL, hT⟩ := h
  intro ts
  simp only [compileWhile]
  repeat (first | exact fuelLe_refl _ | exact hE _ | exact hS _
                | apply fuelLe_bind | intro _ | split_ifs)

theorem compileReturn_mono (fuel : Nat) (h : RulesMono fuel) :
    ∀ ts, FuelLe (compileReturn (fuel + 1) ts) (compileReturn (fuel + 1 + 1) ts) := by
  obtain ⟨hS, hD, hSL, hLet, hIf, hWhile, hDo, hRet, hE, hEL, hT⟩ := h
  intro ts
  simp only [compileReturn]
  repeat (first | exact fuelLe_refl _ | exact hE _
                | apply fuelLe_bind | intro _ | split_ifs)

theorem compileExpression_mono (fuel : Nat) (h : RulesMono fuel) :
    ∀ ts, FuelLe (compileExpression (fuel + 1) ts) (compileExpression (fuel + 1 + 1) ts) := by
  obtain ⟨hS, hD, hSL, hLet, hIf, hWhile, hDo, hRet, hE, hEL, hT⟩ := h
  intro ts
  simp only [compileExpression]
  repeat (first | exact fuelLe_refl _ | exact hT _ | exact hEL _ _
                | apply fuelLe_bind | intro _ | split_ifs)

theorem expressionLoop_mono (fuel : Nat) (h : RulesMono fuel) :
    ∀ ts r, FuelLe (expressionLoop (fuel + 1) ts r) (expressionLoop (fuel + 1 + 1) ts r) := by
  obtain ⟨hS, hD, hSL, hLet, hIf, hWhile, hDo, hRet, hE, hEL, hT⟩ := h
  intro ts r
  unfold expressionLoop
  simp only []
  repeat (first | exact fuelLe_refl _ | exact hT _ | exact hEL _ _
                | apply fuelLe_bind | intro _ | split_ifs)

theorem compileStatement_mono (fuel : Nat) (h : RulesMono fuel) :
    ∀ ts r, FuelLe (compileStatement (fuel + 1) ts r) (compileStatement (fuel + 1 + 1) ts r) := by
  obtain ⟨hS, hD, hSL, hLet, hIf, hWhile, hDo, hRet, hE, hEL, hT⟩ := h
  intro ts r
  simp only [compileStatement]
  repeat (first | exact fuelLe_refl _ | exact hLet _ | exact hIf _ | exact hWhile _ | exact hDo _ | exact hRet _
                | apply fuelLe_bind | intro _ | split_ifs)

theorem statementsLoop_mono (fuel : Nat) (h : RulesMono fuel) :
    ∀ ts r, FuelLe (statementsLoop (fuel + 1) ts r) (statementsLoop (fuel + 1 + 1) ts r) := by
  obtain ⟨hS, hD, hSL, hLet, hIf, hWhile, hDo, hRet, hE, hEL, hT⟩ := h
  intro ts r
  unfold statementsLoop
  simp only []
  repeat (first | exact fuelLe_refl _ | exact hD _ _ | exact hSL _ _
                | apply fuelLe_bind | intro _ | split_ifs)

theorem compileStatements_mono (fuel : Nat) (h : RulesMono fuel) :
    ∀ ts, FuelLe (compileStatements (fuel + 1) ts) (compileStatements (fuel + 1 + 1) ts) := by
  obtain ⟨hS, hD, hSL, hLet, hIf, hWhile, hDo, hRet, hE, hEL, hT⟩ := h
  intro ts
  simp only [compileStatements]
  repeat (first | exact fuelLe_refl _ | exact hD _ _ | exact hSL _ _
                | apply fuelLe_bind | intro _ | split_ifs)

theorem rules_mono (fuel : Nat) : RulesMono fuel := by
  induction fuel with
  | zero =>
    refine ⟨?_, ?_, ?_, ?_, ?_, ?_, ?_, ?_, ?_, ?_, ?_⟩ <;> intros <;> exact Or.inl rfl
  | succ fuel ih =>
    exact ⟨compileStatements_mono fuel ih, compileStatement_mono fuel ih,
      statementsLoop_mono fuel ih, compileLet_mono fuel ih, compileIf_mono fuel ih,
      compileWhile_mono fuel ih, compileDo_mono fuel ih, compileReturn_mono fuel ih,
      compileExpression_mono fuel ih, expressionLoop_mono fuel ih, compileTerm_mono fuel ih⟩

theorem expressionListLoop_mono (fuel : Nat) :
    ∀ ts r, FuelLe (expressionListLoop fuel ts r) (expressionListLoop (fuel + 1) ts r) := by
  induction fuel with
  | zero => intro ts r; exact Or.inl rfl
  | succ fuel ih =>
    have hE := (rules_mono fuel).2.2.2.2.2.2.2.2.1
    intro ts r
    unfold expressionListLoop
    simp only []
    repeat (first | exact fuelLe_refl _ | exact hE _ | exact ih _ _ | apply fuelLe_bind | intro _
                  | split_ifs)

theorem compileExpressionList_mono (fuel : Nat) (ts : List Token) :
    FuelLe (compileExpressionList fuel ts) (compileExpressionList (fuel + 1) ts) := by
  have hE := (rules_mono fuel).2.2.2.2.2.2.2.2.1
  have hL := expressionListLoop_mono fuel
  simp only [compileExpressionList]
  repeat (first | exact fuelLe_refl _ | exact hE _ | exact hL _ _ | apply fuelLe_bind | intro _
                | split_ifs)

theorem compileSubroutineBody_mono (fuel : Nat) (ts : List Token) :
    FuelLe (compileSubroutineBody fuel ts) (compileSubroutineBody (fuel + 1) ts) := by
  have hS := (rules_mono fuel).1
  simp only [compileSubroutineBody]
  repeat (first | exact fuelLe_refl _ | exact hS _ | apply fuelLe_bind | intro _ | split_ifs)

theorem compileSubroutine_mono (fuel : Nat) (ts : List Token) :
    FuelLe (compileSubroutine fuel ts) (compileSubroutine (fuel + 1) ts) := by
  have hB := compileSubroutineBody_mono fuel
  simp only [compileSubroutine]
  generalize compileSubroutineBody fuel = g at hB ⊢
  generalize compileSubroutineBody (fuel + 1) = g1 at hB ⊢
  repeat (first | exact fuelLe_refl _ | exact hB _ | apply fuelLe_bind | intro _ | split_ifs)

theorem compileClass_mono (fuel : Nat) (ts : List Token) :
    FuelLe (compileClass fuel ts) (compileClass (fuel + 1) ts) := by
  have hB := compileSubroutine_mono fuel
  simp only [compileClass]
  generalize compileSubroutine fuel = g at hB ⊢
  generalize compileSubroutine (fuel + 1) = g1 at hB ⊢
  repeat (first | exact fuelLe_refl _ | exact hB _ | apply fuelLe_bind | intro _ | split_ifs)

/-- A result that is an answer of the program stays the same with any larger fuel. -/
theorem stable_of_mono {α : Type} (g : Nat → Except Err α)
    (hm : ∀ n, FuelLe (g n) (g (n + 1))) (n : Nat) (hn : FuelSuffices (g n)) :
    ∀ fuel, n ≤ fuel → g fuel = g n := by
  have key : ∀ k, g (n + k) = g n := by
    intro k
    induction k with
    | zero => rfl
    | succ k ih =>
      rcases hm (n + k) with h | h
      · exact absurd (ih ▸ h) hn
      · rw [← ih]
        exact h.symm
  intro fuel hle
  obtain ⟨k, rfl⟩ := Nat.exists_eq_add_of_le hle
  exact key k

/-- C16: parsing terminates on every finite token sequence. With `4 * length + 4` units of
fuel or more, every rule method gives an answer of the program (a tree, an absent term,
ParseError or the end-of-input condition) and never runs out of fuel; that answer is the
same for every such fuel, so each method is a total function of the token sequence. The
recursion is well-founded: a statement rule that succeeds leaves strictly fewer tokens than
it started with, and `compileTerm` calls `compileExpression` and itself on the tokens after
the `(`, `-` or `~` it has consumed. -/
theorem parsing_terminates (ts : List Token) (fuel : Nat)
    (hfuel : 4 * ts.length + 4 ≤ fuel) :
    (FuelSuffices (compileProgram ts) ∧ FuelSuffices (compileClass fuel ts) ∧
      FuelSuffices (compileClassVarDec ts) ∧ FuelSuffices (compileSubroutine fuel ts) ∧
      FuelSuffices (compileParameterList ts) ∧ FuelSuffices (compileSubroutineBody fuel ts) ∧
      FuelSuffices (compileVarDec ts) ∧ FuelSuffices (compileStatements fuel ts) ∧
      FuelSuffices (compileLet fuel ts) ∧ FuelSuffices (compileIf fuel ts) ∧
      FuelSuffices (compileWhile fuel ts) ∧ FuelSuffices (compileDo fuel ts) ∧
      FuelSuffices (compileReturn fuel ts) ∧ FuelSuffices (compileExpression fuel ts) ∧
      FuelSuffices (compileTerm fuel ts) ∧ FuelSuffices (compileExpressionList fuel ts)) ∧
    (compileClass fuel ts = compileClass (4 * ts.length + 4) ts ∧
      compileSubroutine fuel ts = compileSubroutine (4 * ts.length + 4) ts ∧
      compileSubroutineBody fuel ts = compileSubroutineBody (4 * ts.length + 4) ts ∧
      compileStatements fuel ts = compileStatements (4 * ts.length + 4) ts ∧
      compileLet fuel ts = compileLet (4 * ts.length + 4) ts ∧
      compileIf fuel ts = compileIf (4 * ts.length + 4) ts ∧
      compileWhile fuel ts = compileWhile (4 * ts.length + 4) ts ∧
      compileDo fuel ts = compileDo (4 * ts.length + 4) ts ∧
      compileReturn fuel ts = compileReturn (4 * ts.length + 4) ts ∧
      compileExpression fuel ts = compileExpression (4 * ts.length + 4) ts ∧
      compileTerm fuel ts = compileTerm (4 * ts.length + 4) ts ∧
      compileExpressionList fuel ts = compileExpressionList (4 * ts.length + 4) ts) ∧
    ((∀ tree rest, compileLet fuel ts = .ok (tree, rest) → rest.length < ts.length) ∧
      (∀ tree rest, compileIf fuel ts = .ok (tree, rest) → rest.length < ts.length) ∧
      (∀ tree rest, compileWhile fuel ts = .ok (tree, rest) → rest.length < ts.length) ∧
      (∀ tree rest, compileDo fuel ts = .ok (tree, rest) → rest.length < ts.length) ∧
      (∀ tree rest, compileReturn fuel ts = .ok (tree, rest) → rest.length < ts.length)) ∧
    ((∀ n r, compileTerm (n + 1) (⟨"symbol", "("⟩ :: r)
        = (compileExpression n r >>= fun p => mustBe "symbol" ")" p.2 >>= fun q =>
            pure (some (.node "term" "" [some (.leaf ⟨"symbol", "("⟩), some p.1, q.1]), q.2))) ∧
      (∀ n r, compileTerm (n + 1) (⟨"symbol", "-"⟩ :: r)
        = (compileTerm n r >>= fun p =>
            pure (some (.node "term" "" [some (.leaf ⟨"symbol", "-"⟩), p.1]), p.2))) ∧
      (∀ n r, compileTerm (n + 1) (⟨"symbol", "~"⟩ :: r)
        = (compileTerm n r >>= fun p =>
            pure (some (.node "term" "" [some (.leaf ⟨"symbol", "~"⟩), p.1]), p.2)))) := by
  obtain ⟨hS, -, -, hLet, hIf, hWhile, hDo, hRet, hE, -, hT⟩ := rules_fuel fuel
  obtain ⟨nS, -, -, nLet, nIf, nWhile, nDo, nRet, nE, -, nT⟩ := rules_fuel (4 * ts.length + 4)
  refine ⟨⟨compileProgram_fuel ts, compileClass_fuel fuel ts (by omega),
      compileClassVarDec_fuel ts, compileSubroutine_fuel fuel ts (by omega),
      compileParameterList_fuel ts, compileSubroutineBody_fuel fuel ts (by omega),
      compileVarDec_fuel ts, hS ts (by omega), hLet ts (by omega), hIf ts (by omega),
      hWhile ts (by omega), hDo ts (by omega), hRet ts (by omega), hE ts (by omega),
      hT ts (by omega), compileExpressionList_fuel fuel ts (by omega)⟩,
    ⟨stable_of_mono (fun n => compileClass n ts) (fun n => compileClass_mono n ts) _
        (compileClass_fuel _ ts (by omega)) fuel hfuel,
      stable_of_mono (fun n => compileSubroutine n ts) (fun n => compileSubroutine_mono n ts) _
        (compileSubroutine_fuel _ ts (by omega)) fuel hfuel,
      stable_of_mono (fun n => compileSubroutineBody n ts)
        (fun n => compileSubroutineBody_mono n ts) _
        (compileSubroutineBody_fuel _ ts (by omega)) fuel hfuel,
      stable_of_mono (fun n => compileStatements n ts) (fun n => (rules_mono n).1 ts) _
        (nS ts (by omega)) fuel hfuel,
      stable_of_mono (fun n => compileLet n ts) (fun n => (rules_mono n).2.2.2.1 ts) _
        (nLet ts (by omega)) fuel hfuel,
      stable_of_mono (fun n => compileIf n ts) (fun n => (rules_mono n).2.2.2.2.1 ts) _
        (nIf ts (by omega)) fuel hfuel,
      stable_of_mono (fun n => compileWhile n ts) (fun n => (rules_mono n).2.2.2.2.2.1 ts) _
        (nWhile ts (by omega)) fuel hfuel,
      stable_of_mono (fun n => compileDo n ts) (fun n => (rules_mono n).2.2.2.2.2.2.1 ts) _
        (nDo ts (by omega)) fuel hfuel,
      stable_of_mono (fun n => compileReturn n ts) (fun n => (rules_mono n).2.2.2.2.2.2.2.1 ts) _
        (nRet ts (by omega)) fuel hfuel,
      stable_of_mono (fun n => compileExpression n ts)
        (fun n => (rules_mono n).2.2.2.2.2.2.2.2.1 ts) _ (nE ts (by omega)) fuel hfuel,
      stable_of_mono (fun n => compileTerm n ts)
        (fun n => (rules_mono n).2.2.2.2.2.2.2.2.2.2 ts) _ (nT ts (by omega)) fuel hfuel,
      stable_of_mono (fun n => compileExpressionList n ts)
        (fun n => compileExpressionList_mono n ts) _
        (compileExpressionList_fuel _ ts (by omega)) fuel hfuel⟩,
    ⟨fun _ _ h => compileLet_shrinks h, fun _ _ h => compileIf_shrinks h,
      fun _ _ h => compileWhile_shrinks h, fun _ _ h => compileDo_shrinks h,
      fun _ _ h => compileReturn_shrinks h⟩,
    ⟨fun _ _ => rfl, fun _ _ => rfl, fun _ _ => rfl⟩⟩

/-- The witness of C16: on `let x = true ;` (5 tokens, so 24 units of fuel) `compileLet`
gives an answer, and with 30 units it gives the same. -/
theorem parsing_terminates_witness :
    FuelSuffices (compileLet 24 [⟨"keyword", "let"⟩, ⟨"identifier", "x"⟩, ⟨"symbol", "="⟩,
        ⟨"keyword", "true"⟩, ⟨"symbol", ";"⟩]) ∧
    compileLet 30 [⟨"keyword", "let"⟩, ⟨"identifier", "x"⟩, ⟨"symbol", "="⟩,
        ⟨"keyword", "true"⟩, ⟨"symbol", ";"⟩]
      = compileLet 24 [⟨"keyword", "let"⟩, ⟨"identifier", "x"⟩, ⟨"symbol", "="⟩,
        ⟨"keyword", "true"⟩, ⟨"symbol", ";"⟩] :=
  ⟨(parsing_terminates _ 24 (by decide)).1.2.2.2.2.2.2.2.2.1,
   (parsing_terminates [⟨"keyword", "let"⟩, ⟨"identifier", "x"⟩, ⟨"symbol", "="⟩,
        ⟨"keyword", "true"⟩, ⟨"symbol", ";"⟩] 30 (by decide)).2.1.2.2.2.2.1⟩

end CompilerParser
